import Mathlib

/-!
Shallow embedding of the `django-translations` core
(`translations/utils.py` and `translations/models.py`) and proofs of the
specified properties.

Conventions of the embedding:
* Django model instances become `Obj` values: an entity type descriptor
  (`Mdl`), a numeric primary key, an association list of text attributes
  and an association list of relation attributes.
* The `Translation` side table becomes a list of `Row` values; the
  database state threaded through the stateful operations is that list.
* Python exceptions become `Except Err` / an `Option Err` component of a
  returned state; each `Err` constructor names the Python exception class
  the source raises at the corresponding spot.
* The ambient active language (`django.utils.translation.get_language`)
  and the supported-language set (`settings.LANGUAGES`) are passed as
  explicit parameters `active` and `supported`.
-/

namespace DjangoTranslations

/-- Errors surfaced by the embedded operations.  Each constructor stands for
the Python exception raised by the source at the corresponding place. -/
inductive Err where
  /-- `django.core.exceptions.ValidationError` raised by `validate_language`. -/
  | invalidLanguage
  /-- `Exception` with message about `context` being neither a model instance
  nor a queryset nor a list (`utils.py`). -/
  | invalidContext
  /-- Python `IndexError` from `context[0]` on an empty list. -/
  | indexError
  /-- Python `AttributeError`, e.g. from accessing the manager of the
  abstract model `Translatable` (`Translatable.objects`). -/
  | attributeError
  /-- `django.core.exceptions.FieldDoesNotExist` from `model._meta.get_field`. -/
  | fieldDoesNotExist
  /-- `ValueError` raised by `get_relations_hierarchy` on an empty segment. -/
  | invalidRelationPath
  /-- An injected relational-store failure (delete / bulk insert). -/
  | databaseError
  /-- Artifact of the embedding: recursion fuel ran out (never happens for
  the fuel amounts used in the theorems below). -/
  | fuelExhausted
deriving DecidableEq, Repr

/-- `django.db.models.constants.LOOKUP_SEP`. -/
def LOOKUP_SEP : String := "__"

/-- Helper for `py_split`: scan the characters left to right, splitting at
every occurrence of the two-character separator `__` (`LOOKUP_SEP`),
accumulating the current segment in `acc`.  Matches the greedy
left-to-right semantics of Python's `str.split`. -/
def splitSepAux : List Char → List Char → List (List Char)
  | '_' :: '_' :: rest, acc => acc :: splitSepAux rest []
  | c :: rest, acc => splitSepAux rest (acc ++ [c])
  | [], acc => [acc]

/-- Python's `relation.split(LOOKUP_SEP)`: split a string on `__`.
(Defined structurally rather than through `String.splitOn`, whose
well-founded recursion the kernel cannot evaluate; the semantics is that
of Python `str.split` with a non-empty separator, which `String.splitOn`
shares.) -/
def py_split (s : String) : List String :=
  (splitSepAux s.toList []).map (fun cs => String.mk cs)

/-- An entity type (a Django model class): its `ContentType` id, whether it
subclasses `Translatable`, its declared fields (names, as resolvable by
`model._meta.get_field`) and the names of the fields returned by
`get_translatable_fields` (`models.py`). -/
structure Mdl where
  ctid : Nat
  isTranslatable : Bool
  fields : List String
  translatableFields : List String
deriving DecidableEq, Repr

/-- One row of the `Translation` side table (`models.py`, class
`Translation`).  `object_id` is the text form of the owning entity's id. -/
structure Row where
  content_type : Nat
  object_id : String
  field : String
  language : String
  text : String
deriving DecidableEq, Repr

/-- The uniqueness key of a `Translation` row:
`unique_together = ('content_type', 'object_id', 'field', 'language')`. -/
def Row.key (r : Row) : Nat × String × String × String :=
  (r.content_type, r.object_id, r.field, r.language)

mutual
/-- A model instance: its model, primary key, text attributes and relation
attributes (Python keeps both in one attribute namespace; fields and
relations have disjoint names so we keep two lists). -/
inductive Obj : Type where
  | mk : Mdl → Nat → List (String × String) → List (String × RV) → Obj

/-- The value of a relation attribute: a single related instance (forward
foreign key) or a manager over many instances (reverse / many-to-many);
a manager remembers the related model the way a queryset does. -/
inductive RV : Type where
  | one : Obj → RV
  | many : Mdl → List Obj → RV
end

def Obj.model : Obj → Mdl
  | .mk m _ _ _ => m

def Obj.id : Obj → Nat
  | .mk _ i _ _ => i

def Obj.attrs : Obj → List (String × String)
  | .mk _ _ a _ => a

def Obj.rels : Obj → List (String × RV)
  | .mk _ _ _ r => r

/-- Association-list lookup for attribute values. -/
def lookupA (l : List (String × String)) (f : String) : Option String :=
  (l.find? (fun p => p.1 == f)).map (fun p => p.2)

/-- Association-list update; Python `setattr` overwrites an existing
attribute and creates it otherwise. -/
def setA (l : List (String × String)) (f v : String) : List (String × String) :=
  if l.any (fun p => p.1 == f) then
    l.map (fun p => if p.1 == f then (p.1, v) else p)
  else
    l ++ [(f, v)]

/-- Python `getattr(obj, f, None)` for field attributes. -/
def getattr (o : Obj) (f : String) : Option String :=
  lookupA o.attrs f

/-- Python `hasattr(obj, f)` for field attributes. -/
def hasattr (o : Obj) (f : String) : Bool :=
  (getattr o f).isSome

/-- Python `setattr(obj, f, v)` for field attributes. -/
def setattr (o : Obj) (f v : String) : Obj :=
  match o with
  | .mk m i a r => .mk m i (setA a f v) r

/-- Python `getattr(obj, name, None)` for relation attributes. -/
def getattrRel (o : Obj) (name : String) : Option RV :=
  (o.rels.find? (fun p => p.1 == name)).map (fun p => p.2)

/-- Overwrite a relation attribute (the in-place mutation performed by the
recursive overlay, made functional). -/
def setRel (o : Obj) (name : String) (rv : RV) : Obj :=
  match o with
  | .mk m i a r => .mk m i a (r.map (fun p => if p.1 == name then (p.1, rv) else p))

/-- The ambient active language
(`django.utils.translation.get_language`), modelled as a parameter. -/
def get_language (active : String) : String := active

/-- Modelled from the spec: `validate_language` from
`translations/validators.py`, which is not part of the given sources.
Per spec section 4.1 it fails with `InvalidLanguage` when the resolved tag
is not a member of the supported-language set. -/
def validate_language (supported : List String) (lang : String) : Except Err Unit :=
  if supported.contains lang then .ok () else .error .invalidLanguage

/-- `utils.get_validated_language`: `lang = lang if lang else get_language()`
(Python truthiness: both `None` and the empty string are falsy), then
validate. -/
def get_validated_language (supported : List String) (active : String)
    (lang? : Option String) : Except Err String :=
  let lang :=
    match lang? with
    | some l => if l == "" then get_language active else l
    | none => get_language active
  match validate_language supported lang with
  | .ok _ => .ok lang
  | .error e => .error e

/-- Information `model._meta.get_field` returns about one field: `remote`
models `field.remote_field` / `field.related_model` — `none` for a field
that is not a relation (where `field.remote_field.name` would raise
`AttributeError` on `None`), and otherwise the related model together with
`field.remote_field.name`. -/
structure FieldInfo where
  remote : Option (Mdl × String)
deriving DecidableEq, Repr

/-- The entity type registry (`model._meta.get_field`), as a partial map
from a model's `ContentType` id and a field name to the field's relational
data; `none` means `FieldDoesNotExist`. -/
abbrev Registry : Type := Nat → String → Option FieldInfo

/-- Recursive core of `utils.get_related_query_name`, phrased on the list
of path segments.  The source splits the relation string, recurses on the
re-joined tail and re-splits it; since segments produced by a split never
contain the separator, that round trip is the identity and the recursion
is exactly a recursion on the segment list, done here directly. -/
def get_related_query_name_parts (reg : Registry) (model : Mdl) :
    List String → Except Err String
  | [] => .error .indexError
  | root :: branch =>
    match reg model.ctid root with
    | none => .error .fieldDoesNotExist
    | some fi =>
      match fi.remote with
      | none => .error .attributeError
      | some (branchModel, related_query_name) =>
        match branch with
        | [] => .ok related_query_name
        | b :: bs =>
          match get_related_query_name_parts reg branchModel (b :: bs) with
          | .error e => .error e
          | .ok branch_related_query_name =>
            .ok (branch_related_query_name ++ LOOKUP_SEP ++ related_query_name)

/-- `utils.get_related_query_name`. -/
def get_related_query_name (reg : Registry) (model : Mdl) (relation : String) :
    Except Err String :=
  get_related_query_name_parts reg model (py_split relation)

/-- The context argument of fetch / overlay / persist: a queryset (which
knows its model even when empty), a list, a single instance, or anything
else (`invalid`). -/
inductive Ctx : Type where
  | queryset : Mdl → List Obj → Ctx
  | list : List Obj → Ctx
  | inst : Obj → Ctx
  | invalid : Ctx

/-- Context processing shared by `get_translations` (`utils.py` lines
115–129): the model and the id set (as text, matching `Translation.object_id`).
A single instance uses the filter `id` and a plural context `id__in`; both
are embedded as membership of `object_id` in the id list. -/
def processContext : Ctx → Except Err (Mdl × List String)
  | .queryset m os => .ok (m, os.map (fun o => toString o.id))
  | .list os =>
    match os with
    | [] => .error .indexError  -- `type(context[0])` on an empty list
    | o :: _ => .ok (o.model, os.map (fun x => toString x.id))
  | .inst o => .ok (o.model, [toString o.id])
  | .invalid => .error .invalidContext

/-- `utils.get_translations`.  `db` is the current contents of the
`Translation` table.  The filter built for the context itself selects the
rows owned by the context instances (the semantics of
`Q(<related query name of the generic translations relation>__id[__in]=ids)`).
The filter built for each entry of `relations` is a database-side join
through that relation; its semantics depends on database state outside the
side table, so it is supplied as the oracle `relOracle` (no claim below
exercises it). -/
def get_translations (relOracle : String → List String → Row → Bool)
    (supported : List String) (active : String) (db : List Row)
    (ctx : Ctx) (relations : List String) (lang? : Option String) :
    Except Err (List Row) :=
  match get_validated_language supported active lang? with
  | .error e => .error e
  | .ok lang =>
    match processContext ctx with
    | .error e => .error e
    | .ok (model, ids) =>
      let queries : List (Row → Bool) :=
        (if model.isTranslatable then
          [fun r => r.content_type == model.ctid && ids.contains r.object_id]
         else []) ++
        relations.map (fun relation => relOracle relation ids)
      if queries.length > 0 then
        -- `Translation.objects.filter(language=lang).filter(q1 | q2 | …).distinct()`
        .ok ((db.filter (fun r => r.language == lang)).filter
              (fun r => queries.any (fun q => q r)))
      else
        -- Source: `translations.models.Translatable.objects.none()`.
        -- `Translatable` is an abstract model, and in Django accessing a
        -- manager on an abstract model raises
        -- `AttributeError("Manager isn't available; Translatable is abstract")`.
        .error .attributeError

/-- `hierarchy.setdefault(root, [])` on the insertion-ordered mapping. -/
def hierSetdefault (h : List (String × List String)) (k : String) :
    List (String × List String) :=
  if h.any (fun p => p.1 == k) then h else h ++ [(k, [])]

/-- `hierarchy[root].append(nest)` on the insertion-ordered mapping. -/
def hierAppend (h : List (String × List String)) (k v : String) :
    List (String × List String) :=
  h.map (fun p => if p.1 == k then (p.1, p.2 ++ [v]) else p)

/-- One iteration of the loop of `utils.get_relations_hierarchy`. -/
def hierStep (h : List (String × List String)) (relation : String) :
    Except Err (List (String × List String)) :=
  let parts := py_split relation
  if parts.contains "" then .error .invalidRelationPath
  else
    match parts with
    | [] => .error .indexError  -- unreachable: py_split never returns []
    | root :: tail =>
      let nest := LOOKUP_SEP.intercalate tail
      let h := hierSetdefault h root
      .ok (if nest == "" then h else hierAppend h root nest)

/-- `utils.get_relations_hierarchy`. -/
def get_relations_hierarchy (relations : List String) :
    Except Err (List (String × List String)) :=
  relations.foldlM hierStep []

/-- The dictionary `translate` converts a translations queryset into:
`content_type.id -> object_id -> rows` (insertion-ordered at both levels). -/
abbrev Dict : Type := List (Nat × List (String × List Row))

/-- Append a row at `d[r.content_type][r.object_id]`, creating the missing
levels, exactly like the loop body in `translate` (`utils.py` 250–255). -/
def dictInsertInner (m : List (String × List Row)) (r : Row) :
    List (String × List Row) :=
  if m.any (fun q => q.1 == r.object_id) then
    m.map (fun q => if q.1 == r.object_id then (q.1, q.2 ++ [r]) else q)
  else
    m ++ [(r.object_id, [r])]

/-- Outer level of the dictionary insertion. -/
def dictInsert (d : Dict) (r : Row) : Dict :=
  if d.any (fun p => p.1 == r.content_type) then
    d.map (fun p => if p.1 == r.content_type then (p.1, dictInsertInner p.2 r) else p)
  else
    d ++ [(r.content_type, dictInsertInner [] r)]

/-- `translate`'s conversion of a queryset to the nested dictionary. -/
def buildDict (rows : List Row) : Dict :=
  rows.foldl dictInsert []

/-- `translations_queryset[ct][oid]`; `none` is the `KeyError` case. -/
def dictLookup (d : Dict) (ct : Nat) (oid : String) : Option (List Row) :=
  match (d.find? (fun p => p.1 == ct)).map (fun p => p.2) with
  | none => none
  | some m => (m.find? (fun q => q.1 == oid)).map (fun q => q.2)

/-- The rows the dictionary holds for one entity (with the `KeyError` case
collapsed to the empty list, which the consuming fold treats identically). -/
def dictRows (d : Dict) (ct : Nat) (oid : String) : List Row :=
  (dictLookup d ct oid).getD []

/-- The loop of `translate_obj` (`utils.py` 270–275) over the translation
rows found for one object: `model._meta.get_field(row.field)` raises
`FieldDoesNotExist` for an unknown field name; a row whose field is
translatable, present on the instance and whose text is non-empty
overwrites the attribute. -/
def translate_obj_rows (model : Mdl) (rows : List Row) (obj : Obj) :
    Except Err Obj :=
  rows.foldlM
    (fun o tr =>
      if model.fields.contains tr.field then
        .ok (if model.translatableFields.contains tr.field
                && hasattr o tr.field && tr.text != "" then
              setattr o tr.field tr.text
             else o)
      else .error .fieldDoesNotExist)
    obj

/-- `translate_obj` (`utils.py` 264–275): dictionary lookup with the
`KeyError` → `pass` fallback, then the row loop. -/
def translate_obj (model : Mdl) (d : Dict) (obj : Obj) : Except Err Obj :=
  match dictLookup d model.ctid (toString obj.id) with
  | none => .ok obj
  | some obj_translations => translate_obj_rows model obj_translations obj

/-- The translations-queryset argument of `translate`: either a fetched
queryset (list of rows) or the already-converted dictionary that recursive
calls pass down. -/
inductive TQS : Type where
  | qs : List Row → TQS
  | dict : Dict → TQS

/-- The loop body of `translate_rel` (`utils.py` 289–300), parametrised by
the recursive overlay `recurse` (the recursive call to `translate` with the
shared dictionary and the same language): read one first-level relation
attribute (`getattr(obj, key, None)`), skip it when absent, turn a manager
into its queryset (`.all()`), and overlay the related context with the
descendant relations.  The functional embedding writes the overlaid related
objects back into the relation attribute. -/
def translate_rel_step (recurse : Ctx → List String → Except Err Ctx)
    (o : Obj) (kd : String × List String) : Except Err Obj :=
  match getattrRel o kd.1 with
  | none => .ok o
  | some rv =>
    match rv with
    | .one ro =>
      match recurse (.inst ro) kd.2 with
      | .error e => .error e
      | .ok (.inst ro2) => .ok (setRel o kd.1 (.one ro2))
      | .ok _ => .error .invalidContext  -- unreachable: shape preserved
    | .many rm ros =>
      match recurse (.queryset rm ros) kd.2 with
      | .error e => .error e
      | .ok (.queryset _ ros2) => .ok (setRel o kd.1 (.many rm ros2))
      | .ok _ => .error .invalidContext  -- unreachable: shape preserved

/-- `translate_rel` (`utils.py` 289–300): fold `translate_rel_step` over
the entries of the relations hierarchy. -/
def translate_rel (recurse : Ctx → List String → Except Err Ctx)
    (relations_dict : List (String × List String)) (obj : Obj) :
    Except Err Obj :=
  relations_dict.foldlM (translate_rel_step recurse) obj

/-- The `for obj in context:` loops of `translate`: apply an effectful
operation to every object in order, stopping at the first error. -/
def mapME {α β : Type} (f : α → Except Err β) : List α → Except Err (List β)
  | [] => .ok []
  | a :: rest =>
    match f a with
    | .error e => .error e
    | .ok b =>
      match mapME f rest with
      | .error e => .error e
      | .ok bs => .ok (b :: bs)

/-- The context processing of `utils.translate` (lines 225–236): the model
of the context; an empty list raises `IndexError` at `context[0]` and any
other object raises the invalid-context `Exception`. -/
def translate_process_context : Ctx → Except Err Mdl
  | .queryset m _ => .ok m
  | .list os =>
    match os with
    | [] => .error .indexError
    | o :: _ => .ok o.model
  | .inst o => .ok o.model
  | .invalid => .error .invalidContext

/-- The entities of a context, for stating per-entity properties. -/
def ctxObjs : Ctx → List Obj
  | .queryset _ os => os
  | .list os => os
  | .inst o => [o]
  | .invalid => []

/-- `utils.translate`.  `fuel` bounds the recursion depth through relation
attributes (an artifact of the embedding; every theorem below quantifies
over the fuel or supplies enough of it). -/
def translate (relOracle : String → List String → Row → Bool)
    (supported : List String) (active : String) (db : List Row) :
    Nat → Option TQS → Ctx → List String → Option String → Except Err Ctx
  | 0, _, _, _, _ => .error .fuelExhausted
  | fuel + 1, tqs?, ctx, relations, lang? =>
    match get_validated_language supported active lang? with
    | .error e => .error e
    | .ok lang =>
      -- process context: the model and singular/plural shape
      match translate_process_context ctx with
      | .error e => .error e
      | .ok model =>
        -- generate the translations queryset if none was passed
        match
          (match tqs? with
           | none =>
             match get_translations relOracle supported active db ctx relations (some lang) with
             | .error e => .error e
             | .ok rows => .ok (TQS.qs rows)
           | some t => .ok t : Except Err TQS) with
        | .error e => .error e
        | .ok tqs =>
          -- convert the queryset to a dictionary unless already converted
          let d := match tqs with
            | .qs rows => buildDict rows
            | .dict d => d
          -- translate the context itself
          match
            (if model.isTranslatable then
              match ctx with
              | .inst o =>
                match translate_obj model d o with
                | .error e => .error e
                | .ok o2 => .ok (Ctx.inst o2)
              | .list os =>
                match mapME (translate_obj model d) os with
                | .error e => .error e
                | .ok os2 => .ok (Ctx.list os2)
              | .queryset m os =>
                match mapME (translate_obj model d) os with
                | .error e => .error e
                | .ok os2 => .ok (Ctx.queryset m os2)
              | .invalid => .error .invalidContext  -- unreachable
             else .ok ctx : Except Err Ctx) with
          | .error e => .error e
          | .ok ctx1 =>
            -- translate the context relations
            match get_relations_hierarchy relations with
            | .error e => .error e
            | .ok relations_dict =>
              if relations_dict.length > 0 then
                let recurse := fun c rels =>
                  translate relOracle supported active db fuel
                    (some (.dict d)) c rels (some lang)
                match ctx1 with
                | .inst o =>
                  match translate_rel recurse relations_dict o with
                  | .error e => .error e
                  | .ok o2 => .ok (Ctx.inst o2)
                | .list os =>
                  match mapME (translate_rel recurse relations_dict) os with
                  | .error e => .error e
                  | .ok os2 => .ok (Ctx.list os2)
                | .queryset m os =>
                  match mapME (translate_rel recurse relations_dict) os with
                  | .error e => .error e
                  | .ok os2 => .ok (Ctx.queryset m os2)
                | .invalid => .error .invalidContext  -- unreachable
              else .ok ctx1

/-- Fault-injection flags for the relational store operations used inside
the persist transaction: whether the row-locked delete and the bulk insert
succeed.  The real collaborator may fail at either point; the flags make
both behaviours of the store expressible. -/
structure Store where
  delete_ok : Bool
  bulk_create_ok : Bool
deriving DecidableEq, Repr

/-- `add_translations` (`utils.py` 345–356) for one object: one staged
`Translation` row per translatable field whose current value is truthy
(non-`None` and non-empty). -/
def add_translations (model : Mdl) (lang : String) (obj : Obj) : List Row :=
  model.translatableFields.filterMap
    (fun fname =>
      match getattr obj fname with
      | none => none
      | some v => if v == "" then none else
          some ⟨model.ctid, toString obj.id, fname, lang, v⟩)

/-- `django.db.transaction.atomic` (an external collaborator per spec
section 6): the body runs and may mutate the state step by step, but when
it ends in an error the transaction rolls the state back to the state at
entry and the error propagates (the source's `except Exception: raise`
merely re-raises). -/
def atomic (body : List Row → List Row × Option Err) (db : List Row) :
    List Row × Option Err :=
  match body db with
  | (db2, none) => (db2, none)
  | (_, some e) => (db, some e)

/-- The transactional body of `update_translations` (`utils.py` 333–366):
fetch the existing rows for the context and language, delete them under a
row lock, stage one row per object and non-empty translatable field, and
bulk-insert the staged rows if there are any.  The returned state reflects
how far the body got before a failure; `atomic` discards it on failure. -/
def update_translations_body (st : Store)
    (relOracle : String → List String → Row → Bool)
    (supported : List String) (active : String)
    (ctx : Ctx) (model : Mdl) (objs : List Obj) (lang : String)
    (db : List Row) : List Row × Option Err :=
  match get_translations relOracle supported active db ctx [] (some lang) with
  | .error e => (db, some e)
  | .ok qs =>
    if st.delete_ok then
      let db1 := db.filter (fun r => !(qs.contains r))
      let translations_objects := objs.flatMap (add_translations model lang)
      if translations_objects.length > 0 then
        if st.bulk_create_ok then (db1 ++ translations_objects, none)
        else (db1, some .databaseError)
      else (db1, none)
    else (db, some .databaseError)

/-- `utils.update_translations`: validate the language, process the
context (an empty list returns immediately as a no-op), and, when the
model is translatable, run the delete + bulk-insert body inside a
transaction. -/
def update_translations (st : Store)
    (relOracle : String → List String → Row → Bool)
    (supported : List String) (active : String) (db : List Row)
    (ctx : Ctx) (lang? : Option String) : List Row × Option Err :=
  match get_validated_language supported active lang? with
  | .error e => (db, some e)
  | .ok lang =>
    match ctx with
    | .queryset m os =>
      if m.isTranslatable then
        atomic (update_translations_body st relOracle supported active ctx m os lang) db
      else (db, none)
    | .list [] => (db, none)  -- `if len(context) > 0: … else: return`
    | .list (o :: os) =>
      if o.model.isTranslatable then
        atomic (update_translations_body st relOracle supported active ctx o.model (o :: os) lang) db
      else (db, none)
    | .inst o =>
      if o.model.isTranslatable then
        atomic (update_translations_body st relOracle supported active ctx o.model [o] lang) db
      else (db, none)
    | .invalid => (db, some .invalidContext)

/-- The contribution of a path list to the hierarchy entry of the first
segment `k`: the remaining joined segments of every path whose first
segment is `k`, in input order, with a path of exactly one segment
contributing nothing. -/
def contrib (k : String) (relations : List String) : List String :=
  relations.filterMap (fun rel =>
    match py_split rel with
    | [] => none
    | root :: tail =>
      if root == k then
        match tail with
        | [] => none
        | _ :: _ => some (LOOKUP_SEP.intercalate tail)
      else none)

/-- The first segments of the paths in first-occurrence order, skipping
those already in `excl`. -/
def firstKeys (relations : List String) (excl : List String) : List String :=
  match relations with
  | [] => []
  | rel :: rest =>
    let root := (py_split rel).headD ""
    if excl.contains root then firstKeys rest excl
    else root :: firstKeys rest (excl ++ [root])

/-- Follows the spec's words, for comparison against
`get_relations_hierarchy`: group the paths by first segment, keeping the
first-level keys in first-occurrence order; each key maps to the list of
the remaining joined segments of its paths, with nothing contributed by a
path of exactly one segment. -/
def hierarchySpec (relations : List String) : List (String × List String) :=
  (firstKeys relations []).map (fun k => (k, contrib k relations))

/-! ## Lemmas about attributes -/

theorem lookupA_map_update_self (l : List (String × String)) (f v : String)
    (h : l.any (fun p => p.1 == f) = true) :
    lookupA (l.map (fun p => if p.1 == f then (p.1, v) else p)) f = some v := by
  induction l with
  | nil => simp at h
  | cons p rest ih =>
    by_cases hp : p.1 == f
    · simp [lookupA, List.find?, hp]
    · simp only [List.any_cons, hp, Bool.false_or] at h
      simpa [lookupA, List.find?, hp] using ih h

theorem lookupA_append_single_self (l : List (String × String)) (f v : String) :
    lookupA (l ++ [(f, v)]) f = (lookupA l f).getD v := by
  induction l with
  | nil => simp [lookupA, List.find?]
  | cons p rest ih =>
    by_cases hp : p.1 == f
    · simp [lookupA, List.find?, hp]
    · simpa [lookupA, List.find?, hp] using ih

theorem lookupA_setA_self (l : List (String × String)) (f v : String) :
    lookupA (setA l f v) f = some v := by
  unfold setA
  split
  · rename_i h
    exact lookupA_map_update_self l f v h
  · rename_i h
    rw [lookupA_append_single_self]
    have : lookupA l f = none := by
      unfold lookupA
      rw [List.find?_eq_none.2]
      · rfl
      · intro p hp
        rw [Bool.not_eq_true]
        cases hpe : p.1 == f
        · rfl
        · exact absurd (List.any_eq_true.2 ⟨p, hp, hpe⟩) h
    simp [this]

theorem lookupA_map_update_ne (l : List (String × String)) (f v g : String)
    (hg : g ≠ f) :
    lookupA (l.map (fun p => if p.1 == f then (p.1, v) else p)) g =
      lookupA l g := by
  induction l with
  | nil => rfl
  | cons p rest ih =>
    by_cases hp : p.1 == f
    · have hp1 : p.1 = f := by simpa using hp
      have hpg : (p.1 == g) = false := by
        simp only [beq_eq_false_iff_ne, ne_eq, hp1]
        exact fun hc => hg hc.symm
      simpa [lookupA, List.find?, hp, hpg] using ih
    · by_cases hpg : p.1 == g
      · simp [lookupA, List.find?, hp, hpg]
      · simpa [lookupA, List.find?, hp, hpg] using ih

theorem lookupA_append_single_ne (l : List (String × String)) (f v g : String)
    (hg : g ≠ f) : lookupA (l ++ [(f, v)]) g = lookupA l g := by
  induction l with
  | nil =>
    have : (f == g) = false := by
      simp only [beq_eq_false_iff_ne, ne_eq]
      exact fun hc => hg hc.symm
    simp [lookupA, List.find?, this]
  | cons p rest ih =>
    by_cases hpg : p.1 == g
    · simp [lookupA, List.find?, hpg]
    · simpa [lookupA, List.find?, hpg] using ih

theorem lookupA_setA_ne (l : List (String × String)) (f v g : String)
    (hg : g ≠ f) : lookupA (setA l f v) g = lookupA l g := by
  unfold setA
  split
  · exact lookupA_map_update_ne l f v g hg
  · exact lookupA_append_single_ne l f v g hg

theorem lookupA_setA_isSome (l : List (String × String)) (f v : String)
    (hf : (lookupA l f).isSome = true) (g : String) :
    (lookupA (setA l f v) g).isSome = (lookupA l g).isSome := by
  by_cases hg : g = f
  · subst hg
    rw [lookupA_setA_self]
    simpa using hf
  · rw [lookupA_setA_ne l f v g hg]

theorem getattr_setattr_self (o : Obj) (f v : String) :
    getattr (setattr o f v) f = some v := by
  cases o with
  | mk m i a r => simpa [getattr, setattr] using lookupA_setA_self a f v

theorem getattr_setattr_ne (o : Obj) (f v g : String) (hg : g ≠ f) :
    getattr (setattr o f v) g = getattr o g := by
  cases o with
  | mk m i a r => simpa [getattr, setattr] using lookupA_setA_ne a f v g hg

theorem hasattr_setattr (o : Obj) (f v : String) (hf : hasattr o f = true)
    (g : String) : hasattr (setattr o f v) g = hasattr o g := by
  cases o with
  | mk m i a r =>
    simp only [hasattr, getattr, setattr] at hf ⊢
    exact lookupA_setA_isSome a f v hf g

theorem model_setattr (o : Obj) (f v : String) :
    (setattr o f v).model = o.model := by
  cases o; rfl

theorem id_setattr (o : Obj) (f v : String) :
    (setattr o f v).id = o.id := by
  cases o; rfl

theorem attrs_setRel (o : Obj) (n : String) (rv : RV) :
    (setRel o n rv).attrs = o.attrs := by
  cases o; rfl

theorem getattr_setRel (o : Obj) (n : String) (rv : RV) (f : String) :
    getattr (setRel o n rv) f = getattr o f := by
  cases o; rfl

theorem hasattr_setRel (o : Obj) (n : String) (rv : RV) (f : String) :
    hasattr (setRel o n rv) f = hasattr o f := by
  cases o; rfl

/-! ## Lemmas about the staged rows of the persist engine -/

theorem add_translations_mem (model : Mdl) (lang : String) (obj : Obj)
    (r : Row) (hr : r ∈ add_translations model lang obj) :
    r.content_type = model.ctid ∧ r.object_id = toString obj.id ∧
    r.language = lang ∧ r.field ∈ model.translatableFields ∧
    r.text ≠ "" ∧ getattr obj r.field = some r.text := by
  unfold add_translations at hr
  rw [List.mem_filterMap] at hr
  obtain ⟨fname, hfmem, hf⟩ := hr
  cases hv : getattr obj fname with
  | none => rw [hv] at hf; simp at hf
  | some v =>
    rw [hv] at hf
    by_cases hve : v == ""
    · simp [hve] at hf
    · simp only [hve, if_neg] at hf
      cases hf
      refine ⟨rfl, rfl, rfl, hfmem, ?_, hv⟩
      simpa using hve

theorem add_translations_hit (model : Mdl) (lang : String) (obj : Obj)
    (f v : String) (hf : f ∈ model.translatableFields)
    (hv : getattr obj f = some v) (hne : v ≠ "") :
    (⟨model.ctid, toString obj.id, f, lang, v⟩ : Row) ∈
      add_translations model lang obj := by
  unfold add_translations
  rw [List.mem_filterMap]
  exact ⟨f, hf, by simp [hv, hne]⟩

theorem add_translations_map_field (model : Mdl) (lang : String) (obj : Obj) :
    (add_translations model lang obj).map Row.field =
      model.translatableFields.filter
        (fun fname =>
          match getattr obj fname with
          | none => false
          | some v => !(v == "")) := by
  unfold add_translations
  induction model.translatableFields with
  | nil => rfl
  | cons fname rest ih =>
    cases hv : getattr obj fname with
    | none =>
      simp only [List.filterMap_cons, List.filter_cons, hv]
      simpa using ih
    | some v =>
      by_cases hve : (v == "") = true
      · simp only [List.filterMap_cons, List.filter_cons, hv, hve]
        simpa using ih
      · rw [Bool.not_eq_true] at hve
        simp only [List.filterMap_cons, List.filter_cons, hv, hve]
        simpa using ih

theorem add_translations_field_nodup (model : Mdl) (lang : String) (obj : Obj)
    (h : model.translatableFields.Nodup) :
    ((add_translations model lang obj).map Row.field).Nodup := by
  rw [add_translations_map_field]
  exact List.Nodup.filter _ h

/-! ## Lemmas about the overlay of one object -/

theorem translate_obj_rows_cons_ok (model : Mdl) (tr : Row) (rows : List Row)
    (o : Obj) (h : model.fields.contains tr.field = true) :
    translate_obj_rows model (tr :: rows) o =
      translate_obj_rows model rows
        (if model.translatableFields.contains tr.field
            && hasattr o tr.field && tr.text != "" then
          setattr o tr.field tr.text
        else o) := by
  unfold translate_obj_rows
  rw [List.foldlM_cons]
  simp only [h, if_true]
  rfl

theorem translate_obj_rows_cons_err (model : Mdl) (tr : Row) (rows : List Row)
    (o : Obj) (h : model.fields.contains tr.field = false) :
    translate_obj_rows model (tr :: rows) o = .error .fieldDoesNotExist := by
  unfold translate_obj_rows
  rw [List.foldlM_cons]
  simp only [h, Bool.false_eq_true, if_false]
  rfl

/-- Master lemma about the overlay of one object: when every row names a
defined field the fold succeeds, it never changes the model, the id or the
attribute domain, and every attribute either keeps its value or is set to
the text of some matching translatable non-empty row. -/
theorem translate_obj_rows_spec (model : Mdl) :
    ∀ (rows : List Row) (o : Obj),
    (∀ r ∈ rows, model.fields.contains r.field = true) →
    ∃ o2, translate_obj_rows model rows o = .ok o2 ∧
      o2.model = o.model ∧ o2.id = o.id ∧
      (∀ f, hasattr o2 f = hasattr o f) ∧
      (∀ f, getattr o2 f = getattr o f ∨
        (model.translatableFields.contains f = true ∧ hasattr o f = true ∧
         ∃ r ∈ rows, r.field = f ∧ r.text ≠ "" ∧ getattr o2 f = some r.text)) := by
  intro rows
  induction rows with
  | nil =>
    intro o _
    exact ⟨o, rfl, rfl, rfl, fun _ => rfl, fun f => Or.inl rfl⟩
  | cons tr rest ih =>
    intro o hdef
    have hdef1 : model.fields.contains tr.field = true := hdef tr (by simp)
    set o1 := if model.translatableFields.contains tr.field
        && hasattr o tr.field && tr.text != "" then
        setattr o tr.field tr.text
      else o with ho1
    obtain ⟨o2, heq, hm, hid, hhas, hget⟩ :=
      ih o1 (fun r hr => hdef r (by simp [hr]))
    have hstep : translate_obj_rows model (tr :: rest) o = .ok o2 := by
      rw [translate_obj_rows_cons_ok model tr rest o hdef1, ← ho1]
      exact heq
    have hhas1 : ∀ f, hasattr o1 f = hasattr o f := by
      intro f
      rw [ho1]
      split
      · rename_i hc
        simp only [Bool.and_eq_true] at hc
        exact hasattr_setattr o tr.field tr.text hc.1.2 f
      · rfl
    have hmodel1 : o1.model = o.model := by
      rw [ho1]; split
      · exact model_setattr o tr.field tr.text
      · rfl
    have hid1 : o1.id = o.id := by
      rw [ho1]; split
      · exact id_setattr o tr.field tr.text
      · rfl
    refine ⟨o2, hstep, hm.trans hmodel1, hid.trans hid1,
      fun f => (hhas f).trans (hhas1 f), fun f => ?_⟩
    rcases hget f with hsame | ⟨htf, hha, r, hrmem, hrf, hrt, hrv⟩
    · -- the tail did not change `f`; the head row may have
      rw [ho1] at hsame
      by_cases hc : model.translatableFields.contains tr.field
          && hasattr o tr.field && tr.text != ""
      · rw [if_pos hc] at hsame
        by_cases hf : f = tr.field
        · subst hf
          have hc' := hc
          simp only [Bool.and_eq_true] at hc'
          refine Or.inr ⟨hc'.1.1, hc'.1.2, tr, by simp, rfl, by simpa using hc'.2, ?_⟩
          rw [hsame, getattr_setattr_self]
        · exact Or.inl (hsame.trans (getattr_setattr_ne o tr.field tr.text f hf))
      · rw [if_neg hc] at hsame
        exact Or.inl hsame
    · -- the tail set `f` from row `r`
      exact Or.inr ⟨htf, (hhas1 f) ▸ hha, r, by simp [hrmem], hrf, hrt, hrv⟩

/-- When the rows' fields are pairwise distinct and some row matches field
`f` and satisfies every application condition, the overlaid object holds
exactly that row's text at `f`. -/
theorem translate_obj_rows_hit (model : Mdl) :
    ∀ (rows : List Row) (o : Obj) (r0 : Row),
    (∀ r ∈ rows, model.fields.contains r.field = true) →
    (rows.map Row.field).Nodup →
    r0 ∈ rows →
    model.translatableFields.contains r0.field = true →
    hasattr o r0.field = true →
    r0.text ≠ "" →
    ∃ o2, translate_obj_rows model rows o = .ok o2 ∧
      getattr o2 r0.field = some r0.text := by
  intro rows
  induction rows with
  | nil => intro o r0 _ _ hmem; simp at hmem
  | cons tr rest ih =>
    intro o r0 hdef hnd hmem htf hha hht
    have hdef1 : model.fields.contains tr.field = true := hdef tr (by simp)
    have hndrest : (rest.map Row.field).Nodup := (List.nodup_cons.1 (by simpa using hnd)).2
    have hfresh : tr.field ∉ rest.map Row.field := (List.nodup_cons.1 (by simpa using hnd)).1
    rcases List.mem_cons.1 hmem with hr0 | hr0
    · -- the head row is the matching row
      subst hr0
      have hcond : (model.translatableFields.contains r0.field
          && hasattr o r0.field && (r0.text != "")) = true := by
        rw [htf, hha]
        simpa [bne_iff_ne] using hht
      have ho1 : (if model.translatableFields.contains r0.field
          && hasattr o r0.field && r0.text != "" then
          setattr o r0.field r0.text else o) = setattr o r0.field r0.text := by
        rw [if_pos hcond]
      obtain ⟨o2, heq, _, _, _, hget⟩ :=
        translate_obj_rows_spec model rest (setattr o r0.field r0.text)
          (fun r hr => hdef r (by simp [hr]))
      refine ⟨o2, ?_, ?_⟩
      · rw [translate_obj_rows_cons_ok model r0 rest o hdef1, ho1]
        exact heq
      · rcases hget r0.field with hsame | ⟨_, _, r, hrmem, hrf, _, _⟩
        · rw [hsame, getattr_setattr_self]
        · exact absurd (hrf ▸ List.mem_map_of_mem Row.field hrmem) hfresh
    · -- the matching row sits in the tail
      have hne : tr.field ≠ r0.field := by
        intro hc
        exact hfresh (hc ▸ List.mem_map_of_mem Row.field hr0)
      set o1 := if model.translatableFields.contains tr.field
          && hasattr o tr.field && tr.text != "" then
          setattr o tr.field tr.text else o with ho1
      have hha1 : hasattr o1 r0.field = true := by
        rw [ho1]
        split
        · rename_i hc
          simp only [Bool.and_eq_true] at hc
          rw [hasattr_setattr o tr.field tr.text hc.1.2 r0.field]
          exact hha
        · exact hha
      obtain ⟨o2, heq, hv⟩ :=
        ih o1 r0 (fun r hr => hdef r (by simp [hr])) hndrest hr0 htf hha1 hht
      refine ⟨o2, ?_, hv⟩
      rw [translate_obj_rows_cons_ok model tr rest o hdef1, ← ho1]
      exact heq

/-- A row naming a field that is not defined on the model makes the fold
raise `FieldDoesNotExist` (it is never skipped). -/
theorem translate_obj_rows_err (model : Mdl) :
    ∀ (rows : List Row) (o : Obj),
    (∃ r ∈ rows, model.fields.contains r.field = false) →
    translate_obj_rows model rows o = .error .fieldDoesNotExist := by
  intro rows
  induction rows with
  | nil => intro o h; simp at h
  | cons tr rest ih =>
    intro o ⟨r, hrmem, hrbad⟩
    cases hdef : model.fields.contains tr.field with
    | false => exact translate_obj_rows_cons_err model tr rest o hdef
    | true =>
      rw [translate_obj_rows_cons_ok model tr rest o hdef]
      rcases List.mem_cons.1 hrmem with hr | hr
      · subst hr
        rw [hdef] at hrbad
        exact Bool.noConfusion hrbad
      · exact ih _ ⟨r, hr, hrbad⟩

/-- Rows whose fields are defined but not translatable are skipped without
touching the object. -/
theorem translate_obj_rows_skip (model : Mdl) :
    ∀ (rows : List Row) (o : Obj),
    (∀ r ∈ rows, model.fields.contains r.field = true ∧
      model.translatableFields.contains r.field = false) →
    translate_obj_rows model rows o = .ok o := by
  intro rows
  induction rows with
  | nil => intro o _; rfl
  | cons tr rest ih =>
    intro o h
    obtain ⟨hdef, hnt⟩ := h tr (by simp)
    rw [translate_obj_rows_cons_ok model tr rest o hdef]
    rw [hnt]
    simpa using ih o (fun r hr => h r (by simp [hr]))

/-! ## Lemmas about the translations dictionary -/

/-- Well-formedness of the nested dictionary: no duplicate keys at either
level (`buildDict` maintains it from the empty dictionary). -/
def wfDict (d : Dict) : Prop :=
  (d.map Prod.fst).Nodup ∧ ∀ p ∈ d, (p.2.map Prod.fst).Nodup

theorem dictRows_nil (ct : Nat) (oid : String) : dictRows [] ct oid = [] := rfl

theorem lookupRows_map_fst_dictInsertInner
    (m : List (String × List Row)) (r : Row) :
    (dictInsertInner m r).map Prod.fst =
      if m.any (fun q => q.1 == r.object_id) then m.map Prod.fst
      else m.map Prod.fst ++ [r.object_id] := by
  unfold dictInsertInner
  split
  · rw [List.map_map]
    apply List.map_congr_left
    intro q _
    by_cases hq : q.1 = r.object_id <;> simp [hq]
  · simp

theorem map_fst_dictInsert (d : Dict) (r : Row) :
    (dictInsert d r).map Prod.fst =
      if d.any (fun p => p.1 == r.content_type) then d.map Prod.fst
      else d.map Prod.fst ++ [r.content_type] := by
  unfold dictInsert
  split
  · rw [List.map_map]
    apply List.map_congr_left
    intro p _
    by_cases hp : p.1 = r.content_type <;> simp [hp]
  · simp

theorem wfDict_dictInsert (d : Dict) (r : Row) (hwf : wfDict d) :
    wfDict (dictInsert d r) := by
  obtain ⟨h1, h2⟩ := hwf
  constructor
  · rw [map_fst_dictInsert]
    split
    · exact h1
    · rename_i h
      apply List.Nodup.append h1 (by simp)
      intro a ha hb
      simp only [List.mem_singleton] at hb
      subst hb
      rw [List.mem_map] at ha
      obtain ⟨p, hp, hpa⟩ := ha
      exact h (List.any_eq_true.2 ⟨p, hp, by simp [hpa]⟩)
  · intro p hp
    unfold dictInsert at hp
    split at hp
    · rw [List.mem_map] at hp
      obtain ⟨q, hq, hqe⟩ := hp
      by_cases hqc : q.1 == r.content_type
      · rw [if_pos hqc] at hqe
        subst hqe
        simp only
        rw [lookupRows_map_fst_dictInsertInner]
        split
        · exact h2 q hq
        · rename_i hno
          apply List.Nodup.append (h2 q hq) (by simp)
          intro a ha hb
          simp only [List.mem_singleton] at hb
          subst hb
          rw [List.mem_map] at ha
          obtain ⟨q2, hq2, hq2a⟩ := ha
          exact hno (List.any_eq_true.2 ⟨q2, hq2, by simp [hq2a]⟩)
      · rw [if_neg hqc] at hqe
        subst hqe
        exact h2 q hq
    · rcases List.mem_append.1 hp with hp | hp
      · exact h2 p hp
      · simp only [List.mem_singleton] at hp
        subst hp
        simp [dictInsertInner]

/-- Generic association-list lookup used to state the dictionary lemmas. -/
def alook {κ α : Type} [BEq κ] (l : List (κ × α)) (k : κ) : Option α :=
  (l.find? (fun p => p.1 == k)).map (fun p => p.2)

theorem alook_map_update {κ α : Type} [BEq κ] [LawfulBEq κ]
    (l : List (κ × α)) (k : κ) (g : α → α) (k' : κ) :
    alook (l.map (fun p => if p.1 == k then (p.1, g p.2) else p)) k' =
      Option.map (fun v => if k' == k then g v else v) (alook l k') := by
  induction l with
  | nil => rfl
  | cons p rest ih =>
    by_cases hp : p.1 == k'
    · have hp1 : p.1 = k' := by simpa using hp
      by_cases hpk : p.1 == k
      · have hk : (k' == k) = true := by
          rw [← hp1]; exact hpk
        simp [alook, List.find?, hp, hpk, hk]
      · have hk : (k' == k) = false := by
          rw [← hp1]; simpa using hpk
        simp [alook, List.find?, hp, hpk, hk]
    · by_cases hpk : p.1 == k
      · simp only [List.map_cons, if_pos hpk]
        simpa [alook, List.find?, hp] using ih
      · simp only [List.map_cons, if_neg hpk]
        simpa [alook, List.find?, hp] using ih

theorem alook_append_single {κ α : Type} [BEq κ] [LawfulBEq κ]
    (l : List (κ × α)) (k : κ) (v : α) (k' : κ) :
    alook (l ++ [(k, v)]) k' =
      match alook l k' with
      | some w => some w
      | none => if k' == k then some v else none := by
  induction l with
  | nil =>
    by_cases hk : k' == k
    · have : (k == k') = true := by
        have : k' = k := by simpa using hk
        simp [this]
      simp [alook, List.find?, this, hk]
    · have : (k == k') = false := by
        have : ¬k' = k := by simpa using hk
        simp only [beq_eq_false_iff_ne, ne_eq]
        exact fun hc => this hc.symm
      simp [alook, List.find?, this, hk]
  | cons p rest ih =>
    by_cases hp : p.1 == k'
    · simp [alook, List.find?, hp]
    · simpa [alook, List.find?, hp] using ih

theorem dictLookup_eq_alook (d : Dict) (ct : Nat) (oid : String) :
    dictLookup d ct oid = (alook d ct).bind (fun m => alook m oid) := by
  unfold dictLookup alook
  cases d.find? (fun p => p.1 == ct) <;> rfl

theorem any_eq_isSome_alook {κ α : Type} [BEq κ] (l : List (κ × α)) (k : κ) :
    l.any (fun p => p.1 == k) = (alook l k).isSome := by
  induction l with
  | nil => rfl
  | cons p rest ih =>
    cases hp : p.1 == k with
    | true => simp [alook, List.find?, hp]
    | false => simpa [alook, List.find?, hp] using ih

theorem alook_nil {κ α : Type} [BEq κ] (k : κ) :
    alook ([] : List (κ × α)) k = none := rfl

theorem alook_dictInsertInner (m : List (String × List Row)) (r : Row)
    (oid : String) :
    alook (dictInsertInner m r) oid =
      if oid == r.object_id then some (((alook m oid).getD []) ++ [r])
      else alook m oid := by
  unfold dictInsertInner
  split
  · rename_i h
    rw [alook_map_update m r.object_id (fun rows => rows ++ [r]) oid]
    by_cases hoid : (oid == r.object_id) = true
    · have hoe : oid = r.object_id := by simpa using hoid
      rw [any_eq_isSome_alook, ← hoe] at h
      cases hm : alook m oid with
      | none => rw [hm] at h; simp at h
      | some w => simp [hm, hoid]
    · simp only [Bool.not_eq_true] at hoid
      simp [hoid]
  · rename_i h
    rw [alook_append_single m r.object_id [r] oid]
    by_cases hoid : (oid == r.object_id) = true
    · have hoe : oid = r.object_id := by simpa using hoid
      rw [any_eq_isSome_alook, ← hoe] at h
      cases hm : alook m oid with
      | some w => rw [hm] at h; simp at h
      | none => simp [hm, hoid]
    · simp only [Bool.not_eq_true] at hoid
      cases hm : alook m oid with
      | none => simp [hm, hoid]
      | some w => simp [hm, hoid]

theorem dictLookup_dictInsert (d : Dict) (r : Row) (ct : Nat) (oid : String) :
    dictLookup (dictInsert d r) ct oid =
      if ct == r.content_type && oid == r.object_id then
        some (dictRows d ct oid ++ [r])
      else dictLookup d ct oid := by
  rw [dictLookup_eq_alook]
  unfold dictRows
  rw [dictLookup_eq_alook]
  unfold dictInsert
  split
  · rename_i h
    rw [alook_map_update d r.content_type (fun m => dictInsertInner m r) ct]
    by_cases hct : (ct == r.content_type) = true
    · have hce : ct = r.content_type := by simpa using hct
      rw [any_eq_isSome_alook, ← hce] at h
      cases hd : alook d ct with
      | none => rw [hd] at h; simp at h
      | some m =>
        by_cases hoid : (oid == r.object_id) = true
        · simp [hd, hct, hoid, alook_dictInsertInner]
        · simp only [Bool.not_eq_true] at hoid
          simp [hd, hct, hoid, alook_dictInsertInner]
    · simp only [Bool.not_eq_true] at hct
      simp [hct]
  · rename_i h
    rw [alook_append_single d r.content_type (dictInsertInner [] r) ct]
    by_cases hct : (ct == r.content_type) = true
    · have hce : ct = r.content_type := by simpa using hct
      rw [any_eq_isSome_alook, ← hce] at h
      cases hd : alook d ct with
      | some m => rw [hd] at h; simp at h
      | none =>
        by_cases hoid : (oid == r.object_id) = true
        · simp [hd, hct, hoid, alook_dictInsertInner, alook_nil]
        · simp only [Bool.not_eq_true] at hoid
          simp [hd, hct, hoid, alook_dictInsertInner, alook_nil]
    · simp only [Bool.not_eq_true] at hct
      cases hd : alook d ct with
      | none => simp [hd, hct]
      | some m => simp [hd, hct]

theorem dictRows_dictInsert (d : Dict) (r : Row) (ct : Nat) (oid : String) :
    dictRows (dictInsert d r) ct oid =
      dictRows d ct oid ++
        (if ct == r.content_type && oid == r.object_id then [r] else []) := by
  unfold dictRows
  rw [dictLookup_dictInsert]
  by_cases hc : (ct == r.content_type && oid == r.object_id) = true
  · simp [hc, dictRows]
  · rw [Bool.not_eq_true] at hc
    simp [hc]

theorem dictRows_buildDict_from (rows : List Row) :
    ∀ (d : Dict) (ct : Nat) (oid : String),
    dictRows (rows.foldl dictInsert d) ct oid =
      dictRows d ct oid ++
        rows.filter (fun r => ct == r.content_type && oid == r.object_id) := by
  induction rows with
  | nil => intro d ct oid; simp
  | cons r rest ih =>
    intro d ct oid
    rw [List.foldl_cons, ih (dictInsert d r) ct oid, dictRows_dictInsert]
    rw [List.filter_cons]
    by_cases hc : (ct == r.content_type && oid == r.object_id) = true
    · simp [hc]
    · rw [Bool.not_eq_true] at hc
      simp [hc]

theorem dictRows_buildDict (rows : List Row) (ct : Nat) (oid : String) :
    dictRows (buildDict rows) ct oid =
      rows.filter (fun r => ct == r.content_type && oid == r.object_id) := by
  unfold buildDict
  rw [dictRows_buildDict_from rows [] ct oid]
  rfl

/-- The overlay of one object only depends on the dictionary through the
rows it holds for the object's address (`KeyError` and an empty row list
behave identically). -/
theorem translate_obj_eq_rows (model : Mdl) (d : Dict) (obj : Obj) :
    translate_obj model d obj =
      translate_obj_rows model (dictRows d model.ctid (toString obj.id)) obj := by
  unfold translate_obj dictRows
  cases dictLookup d model.ctid (toString obj.id) with
  | none => rfl
  | some rows => rfl

/-! ## Lemmas about the relation-traversal phase of the overlay -/

theorem model_setRel (o : Obj) (n : String) (rv : RV) :
    (setRel o n rv).model = o.model := by
  cases o; rfl

theorem id_setRel (o : Obj) (n : String) (rv : RV) :
    (setRel o n rv).id = o.id := by
  cases o; rfl

/-- One relation step only rewrites relation attributes. -/
theorem translate_rel_step_attrs (recurse : Ctx → List String → Except Err Ctx)
    (o : Obj) (kd : String × List String) (o1 : Obj)
    (h : translate_rel_step recurse o kd = .ok o1) :
    o1.attrs = o.attrs ∧ o1.model = o.model ∧ o1.id = o.id := by
  unfold translate_rel_step at h
  cases hrel : getattrRel o kd.1 with
  | none =>
    rw [hrel] at h
    cases h
    exact ⟨rfl, rfl, rfl⟩
  | some rv =>
    rw [hrel] at h
    try dsimp only at h
    cases rv with
    | one ro =>
      try dsimp only at h
      cases hrec : recurse (.inst ro) kd.2 with
      | error e => rw [hrec] at h; exact absurd h (by simp)
      | ok c =>
        rw [hrec] at h
        cases c with
        | inst ro2 =>
          cases h
          exact ⟨attrs_setRel o kd.1 (.one ro2), model_setRel o kd.1 (.one ro2),
            id_setRel o kd.1 (.one ro2)⟩
        | queryset m os => exact absurd h (by simp)
        | list os => exact absurd h (by simp)
        | invalid => exact absurd h (by simp)
    | many rm ros =>
      try dsimp only at h
      cases hrec : recurse (.queryset rm ros) kd.2 with
      | error e => rw [hrec] at h; exact absurd h (by simp)
      | ok c =>
        rw [hrec] at h
        cases c with
        | queryset m2 os2 =>
          cases h
          exact ⟨attrs_setRel o kd.1 (.many rm os2), model_setRel o kd.1 (.many rm os2),
            id_setRel o kd.1 (.many rm os2)⟩
        | inst ro2 => exact absurd h (by simp)
        | list os => exact absurd h (by simp)
        | invalid => exact absurd h (by simp)

/-- The relation-traversal phase only rewrites relation attributes: the
field attributes, the model and the id of the traversed object are left
untouched (whatever the recursive overlay does to the related objects). -/
theorem translate_rel_attrs (recurse : Ctx → List String → Except Err Ctx) :
    ∀ (entries : List (String × List String)) (o o2 : Obj),
    translate_rel recurse entries o = .ok o2 →
    o2.attrs = o.attrs ∧ o2.model = o.model ∧ o2.id = o.id := by
  intro entries
  induction entries with
  | nil =>
    intro o o2 h
    unfold translate_rel at h
    simp only [List.foldlM_nil] at h
    cases h
    exact ⟨rfl, rfl, rfl⟩
  | cons kd rest ih =>
    intro o o2 h
    unfold translate_rel at h
    rw [List.foldlM_cons] at h
    cases hstep : translate_rel_step recurse o kd with
    | error e => rw [hstep] at h; exact Except.noConfusion h
    | ok o1 =>
      rw [hstep] at h
      have h1 : translate_rel recurse rest o1 = .ok o2 := h
      obtain ⟨ha, hm, hi⟩ := ih o1 o2 h1
      obtain ⟨ha0, hm0, hi0⟩ := translate_rel_step_attrs recurse o kd o1 hstep
      exact ⟨ha.trans ha0, hm.trans hm0, hi.trans hi0⟩

/-- A successful object loop relates input and output pointwise. -/
theorem mapME_ok_forall₂ {α β : Type} (f : α → Except Err β) :
    ∀ (l : List α) (l2 : List β), mapME f l = .ok l2 →
    List.Forall₂ (fun a b => f a = .ok b) l l2 := by
  intro l
  induction l with
  | nil =>
    intro l2 h
    unfold mapME at h
    cases h
    exact List.Forall₂.nil
  | cons a rest ih =>
    intro l2 h
    unfold mapME at h
    cases ha : f a with
    | error e => rw [ha] at h; exact absurd h (by simp)
    | ok b =>
      rw [ha] at h
      cases hrest : mapME f rest with
      | error e => rw [hrest] at h; exact absurd h (by simp)
      | ok bs =>
        rw [hrest] at h
        cases h
        exact List.Forall₂.cons ha (ih bs hrest)

/-! ## Lemmas about language validation and the fetch engine -/

/-- Re-validating the language code that a validation resolved to resolves
to the same code (used because every internal call re-validates). -/
theorem get_validated_language_self (supported : List String) (active : String)
    (lang? : Option String) (lang : String)
    (hL : get_validated_language supported active lang? = .ok lang) :
    get_validated_language supported active (some lang) = .ok lang := by
  rcases lang? with _ | l
  all_goals unfold get_validated_language get_language validate_language at hL ⊢
  all_goals simp only [] at hL ⊢
  · by_cases hsup : supported.contains active = true
    · have hmem : active ∈ supported := List.elem_iff.1 hsup
      simp only [hsup, if_true, Except.ok.injEq] at hL
      subst hL
      simp [hmem]
    · rw [Bool.not_eq_true] at hsup
      simp only [hsup, Bool.false_eq_true, if_false] at hL
      exact Except.noConfusion hL
  · by_cases hle : (l == "") = true
    · simp only [hle, if_true] at hL
      by_cases hsup : supported.contains active = true
      · have hmem : active ∈ supported := List.elem_iff.1 hsup
        simp only [hsup, if_true, Except.ok.injEq] at hL
        subst hL
        simp [hmem]
      · rw [Bool.not_eq_true] at hsup
        simp only [hsup, Bool.false_eq_true, if_false] at hL
        exact Except.noConfusion hL
    · rw [Bool.not_eq_true] at hle
      simp only [hle, Bool.false_eq_true, if_false] at hL
      by_cases hsup : supported.contains l = true
      · have hmem : l ∈ supported := List.elem_iff.1 hsup
        simp only [hsup, if_true, Except.ok.injEq] at hL
        subst hL
        simp [hle, hmem]
      · rw [Bool.not_eq_true] at hsup
        simp only [hsup, Bool.false_eq_true, if_false] at hL
        exact Except.noConfusion hL

/-- The row filter the fetch engine builds for a single translatable
instance and no relation paths. -/
def ownsB (m : Mdl) (sid lang : String) (r : Row) : Bool :=
  r.language == lang && r.content_type == m.ctid && r.object_id == sid

theorem get_translations_instance_ok
    (relOracle : String → List String → Row → Bool)
    (supported : List String) (active : String) (db : List Row) (o : Obj)
    (lang? : Option String) (lang : String)
    (hT : o.model.isTranslatable = true)
    (hL : get_validated_language supported active lang? = .ok lang) :
    get_translations relOracle supported active db (.inst o) [] lang? =
      .ok (db.filter (ownsB o.model (toString o.id) lang)) := by
  unfold get_translations
  rw [hL]
  unfold processContext
  simp only [hT, if_true, List.map_nil, List.append_nil, List.length_cons,
    List.length_nil]
  rw [if_pos (by simp)]
  rw [List.filter_filter]
  congr 1
  apply List.filter_congr
  intro r _
  unfold ownsB
  have hcont : ([toString o.id].contains r.object_id) = (r.object_id == toString o.id) := by
    cases h : r.object_id == toString o.id <;> simp [List.contains, List.elem, h]
  simp only [List.any_cons, List.any_nil, Bool.or_false, hcont]
  cases r.language == lang <;> cases r.content_type == o.model.ctid <;>
    cases r.object_id == toString o.id <;> simp

/-! ## Lemmas about the persist engine -/

theorem filter_not_contains_filter {α : Type} [DecidableEq α]
    (l : List α) (p : α → Bool) :
    l.filter (fun x => !((l.filter p).contains x)) =
      l.filter (fun x => !(p x)) := by
  apply List.filter_congr
  intro x hx
  congr 1
  cases hp : p x with
  | true =>
    have : x ∈ l.filter p := List.mem_filter.2 ⟨hx, hp⟩
    exact List.elem_iff.2 this
  | false =>
    cases hc : (l.filter p).contains x with
    | false => rfl
    | true =>
      have hmem : x ∈ l.filter p := List.elem_iff.1 hc
      have hpx : p x = true := (List.mem_filter.1 hmem).2
      rw [hpx] at hp
      exact Bool.noConfusion hp

/-- A successful persist of a single translatable instance replaces the
rows owned by the instance in the requested language with the freshly
staged rows, appended at the end of the table. -/
theorem update_translations_instance_ok
    (relOracle : String → List String → Row → Bool)
    (supported : List String) (active : String) (db : List Row) (o : Obj)
    (lang? : Option String) (lang : String)
    (hT : o.model.isTranslatable = true)
    (hL : get_validated_language supported active lang? = .ok lang) :
    update_translations ⟨true, true⟩ relOracle supported active db
        (.inst o) lang? =
      (db.filter (fun r => !(ownsB o.model (toString o.id) lang r)) ++
        add_translations o.model lang o, none) := by
  unfold update_translations
  rw [hL]
  simp only [hT, if_true]
  unfold atomic update_translations_body
  rw [get_translations_instance_ok relOracle supported active db o (some lang)
    lang hT (get_validated_language_self supported active lang? lang hL)]
  simp only [if_true]
  rw [filter_not_contains_filter db (ownsB o.model (toString o.id) lang)]
  have hflat : [o].flatMap (add_translations o.model lang) =
      add_translations o.model lang o := by simp
  rw [hflat]
  cases hs : add_translations o.model lang o with
  | nil => simp
  | cons r rest => simp

theorem ownsB_of_mem_add_translations (model : Mdl) (lang : String) (obj : Obj)
    (r : Row) (hr : r ∈ add_translations model lang obj) :
    ownsB model (toString obj.id) lang r = true := by
  obtain ⟨hct, hoid, hlang, _, _, _⟩ := add_translations_mem model lang obj r hr
  unfold ownsB
  simp [hct, hoid, hlang]

/-- The rows a fresh fetch sees right after a successful persist are
exactly the staged rows of that persist. -/
theorem fetch_after_persist (model : Mdl) (sid lang : String)
    (db staged : List Row)
    (hstaged : ∀ r ∈ staged, ownsB model sid lang r = true) :
    (db.filter (fun r => !(ownsB model sid lang r)) ++ staged).filter
        (ownsB model sid lang) = staged := by
  rw [List.filter_append]
  rw [List.filter_filter]
  have h1 : db.filter (fun r => ownsB model sid lang r && !(ownsB model sid lang r)) = [] := by
    rw [List.filter_eq_nil_iff]
    intro r _
    cases ownsB model sid lang r <;> simp
  rw [h1, List.nil_append]
  exact List.filter_eq_self.2 hstaged

/-! ## Concrete models, objects and registries used by the witnesses -/

/-- A translatable model with fields `name` (translatable) and `code`. -/
def mdlC : Mdl := ⟨1, true, ["name", "code"], ["name"]⟩

/-- A model that does not subclass `Translatable`. -/
def mdlN : Mdl := ⟨2, false, ["title"], []⟩

def objC : Obj := .mk mdlC 7 [("name", "Europe"), ("code", "EU")] []

def objC2 : Obj := .mk mdlC 7 [("name", "Afrika"), ("code", "AF")] []

def freshC : Obj := .mk mdlC 7 [("name", "name?"), ("code", "EU")] []

def objN : Obj := .mk mdlN 3 [("title", "Hi")] []

/-- The relation-clause oracle used by the witnesses (no relation clause
is exercised by any of them). -/
def noOracle : String → List String → Row → Bool := fun _ _ _ => false

/-- A translation row whose `field` is not defined on `mdlC`. -/
def badRow : Row := ⟨1, "7", "nosuch", "de", "x"⟩

def dBad : Dict := [(1, [("7", [badRow])])]

/-- The `Continent` model of the source's docstring example. -/
def Continent : Mdl := ⟨10, true, ["name", "code", "countries"], ["name"]⟩

/-- The `Country` model of the source's docstring example. -/
def Country : Mdl := ⟨11, true, ["name", "states"], ["name"]⟩

/-- The `State` model of the source's docstring example. -/
def State : Mdl := ⟨12, true, ["name", "cities"], ["name"]⟩

/-- The `City` model of the source's docstring example. -/
def City : Mdl := ⟨13, true, ["name"], ["name"]⟩

/-- The field registry of the docstring example: `Continent.countries`
reverses through `Country.continent`, `Country.states` through
`State.country`, and `State.cities` through `City.state`. -/
def regC : Registry := fun ct f =>
  if ct == 10 && f == "countries" then some ⟨some (Country, "continent")⟩
  else if ct == 11 && f == "states" then some ⟨some (State, "country")⟩
  else if ct == 12 && f == "cities" then some ⟨some (City, "state")⟩
  else none

/-! ## The claims -/

/-- C10.  Language validation treats an empty-string tag the same as an
absent tag: for every supported-language set (and active language),
validating `""` substitutes the currently active language and validates
that — it never rejects the empty string itself. -/
theorem empty_language_tag_uses_active_language :
    ∀ (supported : List String) (active : String),
      get_validated_language supported active (some "") =
        get_validated_language supported active none ∧
      get_validated_language supported active (some "") =
        (if supported.contains active then .ok active
         else .error .invalidLanguage) := by
  intro supported active
  refine ⟨rfl, ?_⟩
  unfold get_validated_language validate_language get_language
  simp only []
  by_cases h : active ∈ supported <;> simp [h]

/-- C2.  Contrary to the spec, a fetch for a non-translatable entity type
with no relation paths does not return an empty row set: the source
evaluates `Translatable.objects.none()` on the abstract model
`Translatable`, and accessing a manager on an abstract Django model raises
`AttributeError`.  The fetch therefore raises instead of succeeding. -/
theorem fetch_nontranslatable_no_relations_raises
    (relOracle : String → List String → Row → Bool)
    (supported : List String) (active : String) (db : List Row) (o : Obj)
    (lang? : Option String) (lang : String)
    (hT : o.model.isTranslatable = false)
    (hL : get_validated_language supported active lang? = .ok lang) :
    get_translations relOracle supported active db (.inst o) [] lang? =
      .error .attributeError := by
  unfold get_translations processContext
  rw [hL]
  simp [hT]

/-- Witness for C2: the concrete failing input — a non-translatable
instance, no relation paths, a valid language. -/
theorem fetch_nontranslatable_no_relations_raises_witness :
    get_translations noOracle ["en"] "en" [] (.inst objN) [] (some "en") =
      .error .attributeError :=
  fetch_nontranslatable_no_relations_raises noOracle ["en"] "en" [] objN
    (some "en") "en" rfl rfl

/-- Counterexample for C6 as stated: fetching with an empty list as the
context fails with `IndexError` (from `context[0]`), not with the
invalid-context error the claim promises. -/
theorem fetch_empty_list_raises_indexError_not_invalidContext :
    get_translations noOracle ["en"] "en" [] (.list []) [] (some "en") =
      .error .indexError ∧ Err.indexError ≠ Err.invalidContext := by
  exact ⟨rfl, by decide⟩

/-- C6 (amended).  A context that is neither a single entity, a list, nor a
queryset makes fetch and overlay fail with the invalid-context error; an
empty list instead fails with `IndexError` when its first element is
accessed. -/
theorem invalid_context_rejected
    (relOracle : String → List String → Row → Bool)
    (supported : List String) (active : String) (db : List Row) (fuel : Nat)
    (tqs? : Option TQS) (relations : List String)
    (lang? : Option String) (lang : String)
    (hL : get_validated_language supported active lang? = .ok lang) :
    get_translations relOracle supported active db .invalid relations lang? =
      .error .invalidContext ∧
    translate relOracle supported active db (fuel + 1) tqs? .invalid relations
      lang? = .error .invalidContext ∧
    get_translations relOracle supported active db (.list []) relations lang? =
      .error .indexError ∧
    translate relOracle supported active db (fuel + 1) tqs? (.list [])
      relations lang? = .error .indexError := by
  refine ⟨?_, ?_, ?_, ?_⟩
  · unfold get_translations processContext
    rw [hL]
  · unfold translate translate_process_context
    rw [hL]
  · unfold get_translations processContext
    rw [hL]
  · unfold translate translate_process_context
    rw [hL]

/-- Witness for C6 (amended), at a concrete context, language and store. -/
theorem invalid_context_rejected_witness :
    get_translations noOracle ["en"] "en" [] .invalid [] (some "en") =
      .error .invalidContext ∧
    translate noOracle ["en"] "en" [] 1 none .invalid [] (some "en") =
      .error .invalidContext ∧
    get_translations noOracle ["en"] "en" [] (.list []) [] (some "en") =
      .error .indexError ∧
    translate noOracle ["en"] "en" [] 1 none (.list []) [] (some "en") =
      .error .indexError :=
  invalid_context_rejected noOracle ["en"] "en" [] 0 none [] (some "en") "en" rfl

/-- C9.  During overlay, a translation row for a matched entity whose
`field` does not name any field defined on the entity's type makes the
overlay raise (`model._meta.get_field` raises `FieldDoesNotExist`); such a
row is never silently skipped the way a defined-but-non-translatable field
is. -/
theorem overlay_unknown_field_raises
    (relOracle : String → List String → Row → Bool)
    (supported : List String) (active : String) (db : List Row) (fuel : Nat)
    (d : Dict) (obj : Obj) (rows : List Row)
    (lang? : Option String) (lang : String)
    (hL : get_validated_language supported active lang? = .ok lang)
    (hT : obj.model.isTranslatable = true)
    (hrows : dictLookup d obj.model.ctid (toString obj.id) = some rows)
    (hbad : ∃ r ∈ rows, obj.model.fields.contains r.field = false) :
    translate relOracle supported active db (fuel + 1) (some (.dict d))
      (.inst obj) [] lang? = .error .fieldDoesNotExist := by
  unfold translate translate_process_context
  rw [hL]
  simp only [hT, if_true]
  unfold translate_obj
  rw [hrows]
  dsimp only
  rw [translate_obj_rows_err obj.model rows obj hbad]

/-- Witness for C9: a dictionary holding a row whose field name is not
defined on the (translatable) model of the context entity. -/
theorem overlay_unknown_field_raises_witness :
    translate noOracle ["de"] "de" [] 1 (some (.dict dBad)) (.inst objC) []
      (some "de") = .error .fieldDoesNotExist :=
  overlay_unknown_field_raises noOracle ["de"] "de" [] 0 dBad objC [badRow]
    (some "de") "de" rfl rfl rfl (by decide)

/-- C1.  Round trip: persisting a translatable entity and then overlaying
a fresh copy of it (same model, same id, same attribute domain) with no
relation paths and the same language restores every non-empty translatable
field value of the original entity onto the fresh copy. -/
theorem round_trip_persist_overlay
    (relOracle : String → List String → Row → Bool)
    (supported : List String) (active : String) (db : List Row)
    (obj fresh : Obj) (lang? : Option String) (lang : String) (fuel : Nat)
    (hL : get_validated_language supported active lang? = .ok lang)
    (hT : obj.model.isTranslatable = true)
    (hnd : obj.model.translatableFields.Nodup)
    (hsub : ∀ f ∈ obj.model.translatableFields,
      obj.model.fields.contains f = true)
    (hfm : fresh.model = obj.model)
    (hfi : fresh.id = obj.id)
    (hfa : ∀ f, hasattr fresh f = hasattr obj f) :
    ∃ o2,
      translate relOracle supported active
        (update_translations ⟨true, true⟩ relOracle supported active db
          (.inst obj) lang?).1
        (fuel + 1) none (.inst fresh) [] lang? = .ok (.inst o2) ∧
      ∀ f v, f ∈ obj.model.translatableFields → getattr obj f = some v →
        v ≠ "" → getattr o2 f = some v := by
  rw [update_translations_instance_ok relOracle supported active db obj
    lang? lang hT hL]
  have hstaged : ∀ r ∈ add_translations obj.model lang obj,
      ownsB obj.model (toString obj.id) lang r = true :=
    fun r hr => ownsB_of_mem_add_translations obj.model lang obj r hr
  have hdef : ∀ r ∈ add_translations obj.model lang obj,
      obj.model.fields.contains r.field = true :=
    fun r hr =>
      hsub r.field (add_translations_mem obj.model lang obj r hr).2.2.2.1
  obtain ⟨o2, heq, _, _, _, _⟩ :=
    translate_obj_rows_spec obj.model (add_translations obj.model lang obj)
      fresh hdef
  refine ⟨o2, ?_, ?_⟩
  · unfold translate translate_process_context
    rw [hL]
    dsimp only
    rw [get_translations_instance_ok relOracle supported active _ fresh
      (some lang) lang (by rw [hfm]; exact hT)
      (get_validated_language_self supported active lang? lang hL)]
    rw [hfm, hfi]
    rw [fetch_after_persist obj.model (toString obj.id) lang db
      (add_translations obj.model lang obj) hstaged]
    dsimp only
    simp only [hT, if_true]
    rw [translate_obj_eq_rows]
    rw [hfi, dictRows_buildDict]
    rw [List.filter_eq_self.2 (fun r hr => by
      obtain ⟨hct, hoid, _, _, _, _⟩ :=
        add_translations_mem obj.model lang obj r hr
      simp [hct, hoid])]
    rw [heq]
    rfl
  · intro f v hf hv hne
    have hr0 : (⟨obj.model.ctid, toString obj.id, f, lang, v⟩ : Row) ∈
        add_translations obj.model lang obj :=
      add_translations_hit obj.model lang obj f v hf hv hne
    obtain ⟨o2', heq', hval⟩ :=
      translate_obj_rows_hit obj.model (add_translations obj.model lang obj)
        fresh ⟨obj.model.ctid, toString obj.id, f, lang, v⟩ hdef
        (add_translations_field_nodup obj.model lang obj hnd)
        hr0
        (List.elem_iff.2 hf)
        (by rw [hfa]; unfold hasattr; rw [hv]; rfl)
        hne
    rw [heq'] at heq
    cases heq
    exact hval

/-- Witness for C1: persisting `objC` (whose translatable field `name`
holds `"Europe"`) and overlaying the fresh copy `freshC` restores
`"Europe"` onto the fresh copy. -/
theorem round_trip_persist_overlay_witness :
    (match translate noOracle ["de"] "de"
        (update_translations ⟨true, true⟩ noOracle ["de"] "de" []
          (.inst objC) (some "de")).1
        1 none (.inst freshC) [] (some "de") with
      | .ok (.inst o) => getattr o "name"
      | _ => none) = some "Europe" := by
  obtain ⟨o2, heq, hall⟩ :=
    round_trip_persist_overlay noOracle ["de"] "de" [] objC freshC
      (some "de") "de" 0 rfl rfl (by decide) (by decide) rfl rfl
      (by
        intro f
        show (getattr freshC f).isSome = (getattr objC f).isSome
        unfold getattr lookupA freshC objC
        dsimp only [Obj.attrs]
        cases h1 : ("name" == f) <;> cases h2 : ("code" == f) <;>
          simp [List.find?, h1, h2])
  rw [heq]
  exact hall "name" "Europe" (by decide) rfl (by decide)

/-- C3.  Persist is atomic: whenever `update_translations` surfaces an
error — from validation, from context processing, or from the relational
store anywhere inside the transaction (including a bulk-insert failure
after the delete already ran) — the returned side-table state is exactly
the pre-call state. -/
theorem persist_atomic (st : Store)
    (relOracle : String → List String → Row → Bool)
    (supported : List String) (active : String) (db : List Row) (ctx : Ctx)
    (lang? : Option String) (e : Err)
    (h : (update_translations st relOracle supported active db ctx lang?).2 =
      some e) :
    (update_translations st relOracle supported active db ctx lang?).1 = db := by
  unfold update_translations at h ⊢
  cases hv : get_validated_language supported active lang? with
  | error e2 => rfl
  | ok lang =>
    rw [hv] at h
    cases ctx with
    | queryset m os =>
      by_cases ht : m.isTranslatable = true
      · simp only [ht, if_true] at h ⊢
        unfold atomic at h ⊢
        cases hb : update_translations_body st relOracle supported active
            (.queryset m os) m os lang db with
        | mk db2 oe =>
          rw [hb] at h
          cases oe with
          | none => exact Option.noConfusion h
          | some e2 => rfl
      · rw [Bool.not_eq_true] at ht
        simp [ht] at h
    | list os =>
      cases os with
      | nil => simp at h
      | cons o rest =>
        by_cases ht : o.model.isTranslatable = true
        · simp only [ht, if_true] at h ⊢
          unfold atomic at h ⊢
          cases hb : update_translations_body st relOracle supported active
              (.list (o :: rest)) o.model (o :: rest) lang db with
          | mk db2 oe =>
            rw [hb] at h
            cases oe with
            | none => exact Option.noConfusion h
            | some e2 => rfl
        · rw [Bool.not_eq_true] at ht
          simp [ht] at h
    | inst o =>
      by_cases ht : o.model.isTranslatable = true
      · simp only [ht, if_true] at h ⊢
        unfold atomic at h ⊢
        cases hb : update_translations_body st relOracle supported active
            (.inst o) o.model [o] lang db with
        | mk db2 oe =>
          rw [hb] at h
          cases oe with
          | none => exact Option.noConfusion h
          | some e2 => rfl
      · rw [Bool.not_eq_true] at ht
        simp [ht] at h
    | invalid => rfl

/-- A pre-existing translation row owned by `objC` in language `de`. -/
def oldRow : Row := ⟨1, "7", "name", "de", "Alt"⟩

/-- Witness for C3: a store whose bulk insert fails mid-transaction.  The
body already deleted the old row when the failure hits, yet the error is
surfaced and the table is returned in its exact pre-call state. -/
theorem persist_atomic_witness :
    (update_translations ⟨true, false⟩ noOracle ["de"] "de" [oldRow]
        (.inst objC) (some "de")).2 = some Err.databaseError ∧
    (update_translations ⟨true, false⟩ noOracle ["de"] "de" [oldRow]
        (.inst objC) (some "de")).1 = [oldRow] :=
  ⟨rfl, persist_atomic ⟨true, false⟩ noOracle ["de"] "de" [oldRow]
    (.inst objC) (some "de") Err.databaseError rfl⟩

theorem add_translations_key_nodup (model : Mdl) (lang : String) (obj : Obj)
    (hnd : model.translatableFields.Nodup) :
    ((add_translations model lang obj).map Row.key).Nodup := by
  have hmap : (add_translations model lang obj).map Row.key =
      ((add_translations model lang obj).map Row.field).map
        (fun f => (model.ctid, toString obj.id, f, lang)) := by
    rw [List.map_map]
    apply List.map_congr_left
    intro r hr
    obtain ⟨hct, hoid, hlang, _, _, _⟩ :=
      add_translations_mem model lang obj r hr
    simp [Row.key, hct, hoid, hlang]
  rw [hmap]
  exact (add_translations_field_nodup model lang obj hnd).map
    (fun a b hab => by simpa using hab)

theorem ownsB_congr_key (m : Mdl) (sid lang : String) (r1 r2 : Row)
    (h : Row.key r1 = Row.key r2) :
    ownsB m sid lang r1 = ownsB m sid lang r2 := by
  unfold Row.key at h
  simp only [Prod.mk.injEq] at h
  obtain ⟨h1, h2, _, h4⟩ := h
  unfold ownsB
  rw [h1, h2, h4]

/-- C4.  Persisting the same entity (same type, same id) twice in the same
language never leaves two rows with the same
(content type, object id, field, language) key, and the rows stored for
that entity and language after the second call are exactly the rows staged
from the second call's field values. -/
theorem persist_twice_unique_supersedes
    (relOracle : String → List String → Row → Bool)
    (supported : List String) (active : String) (db : List Row)
    (obj obj2 : Obj) (lang? : Option String) (lang : String)
    (hL : get_validated_language supported active lang? = .ok lang)
    (hT : obj.model.isTranslatable = true)
    (hnd : obj.model.translatableFields.Nodup)
    (hm : obj2.model = obj.model)
    (hi : obj2.id = obj.id)
    (hkeys : (db.map Row.key).Nodup) :
    (((update_translations ⟨true, true⟩ relOracle supported active
        (update_translations ⟨true, true⟩ relOracle supported active db
          (.inst obj) lang?).1
        (.inst obj2) lang?).1.map Row.key).Nodup ∧
     (update_translations ⟨true, true⟩ relOracle supported active
        (update_translations ⟨true, true⟩ relOracle supported active db
          (.inst obj) lang?).1
        (.inst obj2) lang?).1.filter
          (ownsB obj.model (toString obj.id) lang) =
       add_translations obj.model lang obj2) := by
  rw [update_translations_instance_ok relOracle supported active db obj
    lang? lang hT hL]
  rw [update_translations_instance_ok relOracle supported active _ obj2
    lang? lang (by rw [hm]; exact hT) hL]
  rw [hm, hi]
  have hS1 : (add_translations obj.model lang obj).filter
      (fun r => !(ownsB obj.model (toString obj.id) lang r)) = [] := by
    rw [List.filter_eq_nil_iff]
    intro r hr
    rw [ownsB_of_mem_add_translations obj.model lang obj r hr]
    simp
  have hFdb : (db.filter (fun r => !(ownsB obj.model (toString obj.id) lang r))).filter
      (fun r => !(ownsB obj.model (toString obj.id) lang r)) =
      db.filter (fun r => !(ownsB obj.model (toString obj.id) lang r)) := by
    rw [List.filter_filter]
    apply List.filter_congr
    intro r _
    cases ownsB obj.model (toString obj.id) lang r <;> simp
  rw [List.filter_append, hS1, hFdb, List.append_nil]
  constructor
  · rw [List.map_append]
    apply List.Nodup.append
    · exact ((List.filter_sublist db).map Row.key).nodup hkeys
    · exact add_translations_key_nodup obj.model lang obj2 hnd
    · rw [List.disjoint_left]
      intro k hk1 hk2
      rw [List.mem_map] at hk1 hk2
      obtain ⟨r1, hr1, hk1⟩ := hk1
      obtain ⟨r2, hr2, hk2⟩ := hk2
      have howns1 : ownsB obj.model (toString obj.id) lang r1 = false := by
        have := (List.mem_filter.1 hr1).2
        cases howns : ownsB obj.model (toString obj.id) lang r1
        · rfl
        · rw [howns] at this; exact Bool.noConfusion this
      have howns2 : ownsB obj.model (toString obj.id) lang r2 = true := by
        rw [← hi]
        exact ownsB_of_mem_add_translations obj.model lang obj2 r2 hr2
      rw [ownsB_congr_key obj.model (toString obj.id) lang r1 r2
        (hk1.trans hk2.symm), howns2] at howns1
      exact Bool.noConfusion howns1
  · exact fetch_after_persist obj.model (toString obj.id) lang db
      (add_translations obj.model lang obj2)
      (fun r hr => by
        rw [← hi]
        exact ownsB_of_mem_add_translations obj.model lang obj2 r hr)

/-- Witness for C4: persisting `objC` and then `objC2` (same entity, new
values) leaves exactly the second call's rows for the entity and language,
with pairwise distinct keys. -/
theorem persist_twice_unique_supersedes_witness :
    (((update_translations ⟨true, true⟩ noOracle ["de"] "de"
        (update_translations ⟨true, true⟩ noOracle ["de"] "de" [oldRow]
          (.inst objC) (some "de")).1
        (.inst objC2) (some "de")).1.map Row.key).Nodup ∧
     (update_translations ⟨true, true⟩ noOracle ["de"] "de"
        (update_translations ⟨true, true⟩ noOracle ["de"] "de" [oldRow]
          (.inst objC) (some "de")).1
        (.inst objC2) (some "de")).1.filter
          (ownsB objC.model (toString objC.id) "de") =
       add_translations objC.model "de" objC2) :=
  persist_twice_unique_supersedes noOracle ["de"] "de" [oldRow] objC objC2
    (some "de") "de" rfl rfl (by decide) rfl rfl (by decide)

/-! ## Helper lemmas for the overlay-selectivity claim -/

/-- Every row a successful fetch returns comes from the side table and
carries the requested language. -/
theorem get_translations_ok_mem
    (relOracle : String → List String → Row → Bool)
    (supported : List String) (active : String) (db : List Row) (ctx : Ctx)
    (relations : List String) (lang? : Option String) (lang : String)
    (rows : List Row)
    (hL : get_validated_language supported active lang? = .ok lang)
    (hq : get_translations relOracle supported active db ctx relations lang? =
      .ok rows) :
    ∀ r ∈ rows, r ∈ db ∧ r.language = lang := by
  unfold get_translations at hq
  rw [hL] at hq
  dsimp only at hq
  cases hpc : processContext ctx with
  | error e => rw [hpc] at hq; exact Except.noConfusion hq
  | ok p =>
    obtain ⟨mdl, ids⟩ := p
    rw [hpc] at hq
    split at hq
    all_goals try split at hq
    all_goals try split at hq
    all_goals first
      | exact Except.noConfusion hq
      | (simp only [Except.ok.injEq] at hq
         subst hq
         intro r hr
         have h1 := List.mem_filter.1 hr
         have h2 := List.mem_filter.1 h1.1
         exact ⟨h2.1, by simpa using h2.2⟩)

theorem getattr_eq_of_attrs_eq (o o2 : Obj) (h : o2.attrs = o.attrs) :
    ∀ f, getattr o2 f = getattr o f := by
  intro f
  unfold getattr
  rw [h]

/-- Composition of two pointwise relations on lists. -/
theorem forall₂_comp {α β γ : Type} {P : α → β → Prop} {Q : β → γ → Prop}
    {R : α → γ → Prop} (himp : ∀ a b c, P a b → Q b c → R a c) :
    ∀ {l1 : List α} {l2 : List β} {l3 : List γ},
    List.Forall₂ P l1 l2 → List.Forall₂ Q l2 l3 → List.Forall₂ R l1 l3 := by
  intro l1 l2 l3 h1
  induction h1 generalizing l3 with
  | nil => intro h2; cases h2; exact .nil
  | cons hab h ih =>
    intro h2
    cases h2 with
    | cons hbc h2r => exact .cons (himp _ _ _ hab hbc) (ih h2r)

/-- The per-object core of overlay selectivity: a successful overlay of one
object only changes attributes that are translatable, present on the
object and matched by a non-empty row of the dictionary built from the
fetched rows; the new value is that row's text. -/
theorem translate_obj_ok_props (model : Mdl) (db rows : List Row)
    (lang : String) (hsub : ∀ r ∈ rows, r ∈ db ∧ r.language = lang)
    (o o1 : Obj) (hok : translate_obj model (buildDict rows) o = .ok o1) :
    ∀ f, getattr o1 f ≠ getattr o f →
      model.translatableFields.contains f = true ∧ hasattr o f = true ∧
      ∃ r ∈ db, r.language = lang ∧ r.content_type = model.ctid ∧
        r.object_id = toString o.id ∧ r.field = f ∧ r.text ≠ "" ∧
        getattr o1 f = some r.text := by
  rw [translate_obj_eq_rows, dictRows_buildDict] at hok
  set rowsO := rows.filter
    (fun r => model.ctid == r.content_type && toString o.id == r.object_id)
    with hrowsO
  have hdef : ∀ r ∈ rowsO, model.fields.contains r.field = true := by
    intro r hr
    by_contra hc
    rw [Bool.not_eq_true] at hc
    rw [translate_obj_rows_err model rowsO o ⟨r, hr, hc⟩] at hok
    exact Except.noConfusion hok
  obtain ⟨o2, heq, _, _, _, hget⟩ := translate_obj_rows_spec model rowsO o hdef
  rw [heq] at hok
  cases hok
  intro f hne
  rcases hget f with hsame | ⟨htf, hha, r, hrmem, hrf, hrt, hrv⟩
  · exact absurd hsame hne
  · have hr1 := List.mem_filter.1 hrmem
    obtain ⟨hmemdb, hlang⟩ := hsub r hr1.1
    have hctoid := hr1.2
    simp only [Bool.and_eq_true, beq_iff_eq] at hctoid
    exact ⟨htf, hha, r, hmemdb, hlang, hctoid.1.symm, hctoid.2.symm, hrf,
      hrt, hrv⟩

/-- The selectivity property for one context entity, combining the context
translation step with the attribute-preserving relation phase. -/
theorem overlay_pair_props (model : Mdl) (db rows : List Row) (lang : String)
    (hsub : ∀ r ∈ rows, r ∈ db ∧ r.language = lang)
    (o o1 o2 : Obj)
    (hob : translate_obj model (buildDict rows) o = .ok o1)
    (hattrs : o2.attrs = o1.attrs) :
    ∀ f, getattr o2 f ≠ getattr o f →
      model.translatableFields.contains f = true ∧ hasattr o f = true ∧
      ∃ r ∈ db, r.language = lang ∧ r.content_type = model.ctid ∧
        r.object_id = toString o.id ∧ r.field = f ∧ r.text ≠ "" ∧
        getattr o2 f = some r.text := by
  intro f hne
  have hgeq := getattr_eq_of_attrs_eq o1 o2 hattrs f
  rw [hgeq] at hne ⊢
  exact translate_obj_ok_props model db rows lang hsub o o1 hob f hne

/-- C5.  Overlay selectivity: in a successful overlay call the only fields
of a context entity whose values change are fields that are declared
translatable for the context's model, exist on the entity, and are matched
by a translation row of the side table with the requested language and
non-empty text; the changed field holds that row's text, so in particular
a row with empty text never overwrites anything and all other fields keep
their original values. -/
theorem overlay_selectivity
    (relOracle : String → List String → Row → Bool)
    (supported : List String) (active : String) (db : List Row) (fuel : Nat)
    (ctx ctx2 : Ctx) (relations : List String)
    (lang? : Option String) (lang : String) (model : Mdl)
    (hm : translate_process_context ctx = .ok model)
    (hL : get_validated_language supported active lang? = .ok lang)
    (h : translate relOracle supported active db (fuel + 1) none ctx relations
      lang? = .ok ctx2) :
    List.Forall₂ (fun o o2 =>
      ∀ f, getattr o2 f ≠ getattr o f →
        model.translatableFields.contains f = true ∧ hasattr o f = true ∧
        ∃ r ∈ db, r.language = lang ∧ r.content_type = model.ctid ∧
          r.object_id = toString o.id ∧ r.field = f ∧ r.text ≠ "" ∧
          getattr o2 f = some r.text)
      (ctxObjs ctx) (ctxObjs ctx2) := by
  unfold translate at h
  rw [hL] at h
  try dsimp only at h
  rw [hm] at h
  try dsimp only at h
  cases hq : get_translations relOracle supported active db ctx relations
      (some lang) with
  | error e => rw [hq] at h; exact Except.noConfusion h
  | ok rows =>
    rw [hq] at h
    try dsimp only at h
    have hsub := get_translations_ok_mem relOracle supported active db ctx
      relations (some lang) lang rows
      (get_validated_language_self supported active lang? lang hL) hq
    by_cases hTt : model.isTranslatable = true
    · simp only [hTt, if_true] at h
      cases ctx with
      | invalid => exact absurd hm (by unfold translate_process_context; simp)
      | inst o =>
        try dsimp only at h
        cases hob : translate_obj model (buildDict rows) o with
        | error e => rw [hob] at h; exact Except.noConfusion h
        | ok o1 =>
          rw [hob] at h
          try dsimp only at h
          cases hh : get_relations_hierarchy relations with
          | error e => rw [hh] at h; exact Except.noConfusion h
          | ok rd =>
            rw [hh] at h
            try dsimp only at h
            by_cases hlen : rd.length > 0
            · rw [if_pos hlen] at h
              try dsimp only at h
              cases hrel : translate_rel
                  (fun c rels => translate relOracle supported active db fuel
                    (some (TQS.dict (buildDict rows))) c rels (some lang))
                  rd o1 with
              | error e => rw [hrel] at h; exact Except.noConfusion h
              | ok o2 =>
                rw [hrel] at h
                cases h
                obtain ⟨hattrs, _, _⟩ := translate_rel_attrs _ rd o1 o2 hrel
                exact List.Forall₂.cons
                  (overlay_pair_props model db rows lang hsub o o1 o2 hob hattrs)
                  List.Forall₂.nil
            · rw [if_neg hlen] at h
              cases h
              exact List.Forall₂.cons
                (overlay_pair_props model db rows lang hsub o o1 o1 hob rfl)
                List.Forall₂.nil
      | list os =>
        try dsimp only at h
        cases hob : mapME (translate_obj model (buildDict rows)) os with
        | error e => rw [hob] at h; exact Except.noConfusion h
        | ok os1 =>
          rw [hob] at h
          try dsimp only at h
          have hctx1 := mapME_ok_forall₂ (translate_obj model (buildDict rows))
            os os1 hob
          cases hh : get_relations_hierarchy relations with
          | error e => rw [hh] at h; exact Except.noConfusion h
          | ok rd =>
            rw [hh] at h
            try dsimp only at h
            by_cases hlen : rd.length > 0
            · rw [if_pos hlen] at h
              try dsimp only at h
              cases hrel : mapME (translate_rel
                  (fun c rels => translate relOracle supported active db fuel
                    (some (TQS.dict (buildDict rows))) c rels (some lang)) rd)
                  os1 with
              | error e => rw [hrel] at h; exact Except.noConfusion h
              | ok os2 =>
                rw [hrel] at h
                cases h
                have hrel2 := mapME_ok_forall₂ _ os1 os2 hrel
                exact forall₂_comp
                  (fun o o1 o2 hPo hQ =>
                    overlay_pair_props model db rows lang hsub o o1 o2 hPo
                      (translate_rel_attrs _ rd o1 o2 hQ).1)
                  hctx1 hrel2
            · rw [if_neg hlen] at h
              cases h
              exact hctx1.imp
                (fun o o1 hok =>
                  overlay_pair_props model db rows lang hsub o o1 o1 hok rfl)
      | queryset mq os =>
        try dsimp only at h
        cases hob : mapME (translate_obj model (buildDict rows)) os with
        | error e => rw [hob] at h; exact Except.noConfusion h
        | ok os1 =>
          rw [hob] at h
          try dsimp only at h
          have hctx1 := mapME_ok_forall₂ (translate_obj model (buildDict rows))
            os os1 hob
          cases hh : get_relations_hierarchy relations with
          | error e => rw [hh] at h; exact Except.noConfusion h
          | ok rd =>
            rw [hh] at h
            try dsimp only at h
            by_cases hlen : rd.length > 0
            · rw [if_pos hlen] at h
              try dsimp only at h
              cases hrel : mapME (translate_rel
                  (fun c rels => translate relOracle supported active db fuel
                    (some (TQS.dict (buildDict rows))) c rels (some lang)) rd)
                  os1 with
              | error e => rw [hrel] at h; exact Except.noConfusion h
              | ok os2 =>
                rw [hrel] at h
                cases h
                have hrel2 := mapME_ok_forall₂ _ os1 os2 hrel
                exact forall₂_comp
                  (fun o o1 o2 hPo hQ =>
                    overlay_pair_props model db rows lang hsub o o1 o2 hPo
                      (translate_rel_attrs _ rd o1 o2 hQ).1)
                  hctx1 hrel2
            · rw [if_neg hlen] at h
              cases h
              exact hctx1.imp
                (fun o o1 hok =>
                  overlay_pair_props model db rows lang hsub o o1 o1 hok rfl)
    · rw [Bool.not_eq_true] at hTt
      simp only [hTt, Bool.false_eq_true, if_false] at h
      cases hh : get_relations_hierarchy relations with
      | error e => rw [hh] at h; exact Except.noConfusion h
      | ok rd =>
        rw [hh] at h
        try dsimp only at h
        by_cases hlen : rd.length > 0
        · rw [if_pos hlen] at h
          cases ctx with
          | invalid => exact absurd hm (by unfold translate_process_context; simp)
          | inst o =>
            try dsimp only at h
            cases hrel : translate_rel
                (fun c rels => translate relOracle supported active db fuel
                  (some (TQS.dict (buildDict rows))) c rels (some lang))
                rd o with
            | error e => rw [hrel] at h; exact Except.noConfusion h
            | ok o2 =>
              rw [hrel] at h
              cases h
              exact List.Forall₂.cons
                (fun f hne => absurd (getattr_eq_of_attrs_eq o o2
                  (translate_rel_attrs _ rd o o2 hrel).1 f) hne)
                List.Forall₂.nil
          | list os =>
            try dsimp only at h
            cases hrel : mapME (translate_rel
                (fun c rels => translate relOracle supported active db fuel
                  (some (TQS.dict (buildDict rows))) c rels (some lang)) rd)
                os with
            | error e => rw [hrel] at h; exact Except.noConfusion h
            | ok os2 =>
              rw [hrel] at h
              cases h
              exact (mapME_ok_forall₂ _ os os2 hrel).imp
                (fun o o2 hok => fun f hne =>
                  absurd (getattr_eq_of_attrs_eq o o2
                    (translate_rel_attrs _ rd o o2 hok).1 f) hne)
          | queryset mq os =>
            try dsimp only at h
            cases hrel : mapME (translate_rel
                (fun c rels => translate relOracle supported active db fuel
                  (some (TQS.dict (buildDict rows))) c rels (some lang)) rd)
                os with
            | error e => rw [hrel] at h; exact Except.noConfusion h
            | ok os2 =>
              rw [hrel] at h
              cases h
              exact (mapME_ok_forall₂ _ os os2 hrel).imp
                (fun o o2 hok => fun f hne =>
                  absurd (getattr_eq_of_attrs_eq o o2
                    (translate_rel_attrs _ rd o o2 hok).1 f) hne)
        · rw [if_neg hlen] at h
          cases h
          exact List.forall₂_same.2
            (fun o _ => fun f hne => absurd rfl hne)

/-- A stored translation row for `objC`'s `name` field in `de`. -/
def rowE : Row := ⟨1, "7", "name", "de", "Europa"⟩

/-- The result of overlaying `objC` with `rowE` applied. -/
def objD : Obj := .mk mdlC 7 [("name", "Europa"), ("code", "EU")] []

/-- Witness for C5: a concrete overlay call on `objC` (which changes its
`name` attribute to the stored translation) satisfies the selectivity
property. -/
theorem overlay_selectivity_witness :
    List.Forall₂ (fun o o2 =>
      ∀ f, getattr o2 f ≠ getattr o f →
        mdlC.translatableFields.contains f = true ∧ hasattr o f = true ∧
        ∃ r ∈ [rowE], r.language = "de" ∧ r.content_type = mdlC.ctid ∧
          r.object_id = toString o.id ∧ r.field = f ∧ r.text ≠ "" ∧
          getattr o2 f = some r.text)
      (ctxObjs (.inst objC)) (ctxObjs (.inst objD)) :=
  overlay_selectivity noOracle ["de"] "de" [rowE] 0 (.inst objC)
    (.inst objD) [] (some "de") "de" mdlC rfl rfl rfl

/-! ## Helper lemmas for the hierarchy-grouping claim -/

theorem intercalate_go_length (s : String) :
    ∀ (l : List String) (acc : String),
    acc.length ≤ (String.intercalate.go acc s l).length := by
  intro l
  induction l with
  | nil => intro acc; exact Nat.le_refl _
  | cons a as ih =>
    intro acc
    show acc.length ≤ (String.intercalate.go (acc ++ s ++ a) s as).length
    refine Nat.le_trans ?_ (ih (acc ++ s ++ a))
    simp only [String.length_append]
    omega

theorem intercalate_ne_empty (a : String) (t : List String) (ha : a ≠ "") :
    LOOKUP_SEP.intercalate (a :: t) ≠ "" := by
  intro hc
  have h1 : a.length ≤ (LOOKUP_SEP.intercalate (a :: t)).length :=
    intercalate_go_length LOOKUP_SEP t a
  rw [hc] at h1
  simp only [String.length_empty, Nat.le_zero] at h1
  apply ha
  cases a with
  | mk data =>
    simp only [String.length_mk, List.length_eq_zero] at h1
    rw [h1]

theorem contrib_nil (k : String) : contrib k [] = [] := rfl

theorem contrib_cons_single (k rel : String) (rest : List String)
    (root : String) (h : py_split rel = [root]) :
    contrib k (rel :: rest) = contrib k rest := by
  unfold contrib
  rw [List.filterMap_cons]
  rw [h]
  by_cases hrk : root = k <;> simp [hrk]

theorem contrib_cons_nested (k rel : String) (rest : List String)
    (root a : String) (as : List String) (h : py_split rel = root :: a :: as) :
    contrib k (rel :: rest) =
      if root == k then LOOKUP_SEP.intercalate (a :: as) :: contrib k rest
      else contrib k rest := by
  unfold contrib
  rw [List.filterMap_cons]
  rw [h]
  by_cases hrk : root = k <;> simp [hrk]

theorem firstKeys_cons (rel : String) (rest : List String)
    (excl : List String) (root : String) (tail : List String)
    (h : py_split rel = root :: tail) :
    firstKeys (rel :: rest) excl =
      if excl.contains root then firstKeys rest excl
      else root :: firstKeys rest (excl ++ [root]) := by
  conv_lhs => rw [firstKeys.eq_def]
  dsimp only
  rw [h]
  simp only [List.headD_cons]

theorem firstKeys_not_mem_excl :
    ∀ (rels : List String) (excl : List String) (k : String),
    k ∈ firstKeys rels excl → k ∉ excl := by
  intro rels
  induction rels with
  | nil => intro excl k hk; simp [firstKeys] at hk
  | cons rel rest ih =>
    intro excl k hk
    unfold firstKeys at hk
    by_cases hc : excl.contains ((py_split rel).headD "")
    · rw [if_pos hc] at hk
      exact ih excl k hk
    · rw [if_neg hc] at hk
      rcases List.mem_cons.1 hk with hk | hk
      · subst hk
        intro hmem
        exact hc (List.elem_iff.2 hmem)
      · intro hmem
        exact (ih (excl ++ [(py_split rel).headD ""]) k hk)
          (List.mem_append.2 (Or.inl hmem))

theorem keys_contains_eq_any (h : List (String × List String)) (k : String) :
    (h.map Prod.fst).contains k = h.any (fun p => p.1 == k) := by
  induction h with
  | nil => rfl
  | cons p rest ih =>
    by_cases hp : p.1 = k
    · simp [hp, List.contains_cons]
    · have h1 : (p.1 == k) = false := by simpa using hp
      have h2 : (k == p.1) = false := by
        simp only [beq_eq_false_iff_ne, ne_eq]
        exact fun hc => hp hc.symm
      simpa [List.contains_cons, h1, h2] using ih

theorem hierSetdefault_mem (h0 : List (String × List String)) (root : String)
    (h : h0.any (fun p => p.1 == root) = true) :
    hierSetdefault h0 root = h0 := by
  unfold hierSetdefault
  rw [if_pos h]

theorem hierSetdefault_new (h0 : List (String × List String)) (root : String)
    (h : h0.any (fun p => p.1 == root) = false) :
    hierSetdefault h0 root = h0 ++ [(root, [])] := by
  unfold hierSetdefault
  rw [if_neg (by simp [h])]

theorem keys_hierAppend (h0 : List (String × List String)) (k v : String) :
    (hierAppend h0 k v).map Prod.fst = h0.map Prod.fst := by
  unfold hierAppend
  rw [List.map_map]
  apply List.map_congr_left
  intro p _
  by_cases hp : p.1 = k <;> simp [hp]

theorem any_false_forall {α : Type} (l : List α) (p : α → Bool)
    (h : l.any p = false) : ∀ x ∈ l, p x = false := by
  intro x hx
  cases hp : p x with
  | false => rfl
  | true => exact absurd (List.any_eq_true.2 ⟨x, hx, hp⟩) (by simp [h])

theorem hierStep_single (h0 : List (String × List String)) (rel root : String)
    (hsplit : py_split rel = [root])
    (hnc : (py_split rel).contains "" = false) :
    hierStep h0 rel = .ok (hierSetdefault h0 root) := by
  unfold hierStep
  rw [hsplit] at hnc ⊢
  simp only [hnc, Bool.false_eq_true, if_false]
  rfl

theorem hierStep_nested (h0 : List (String × List String)) (rel root a : String)
    (as : List String) (hsplit : py_split rel = root :: a :: as)
    (hnc : (py_split rel).contains "" = false) (ha : a ≠ "") :
    hierStep h0 rel =
      .ok (hierAppend (hierSetdefault h0 root) root
        (LOOKUP_SEP.intercalate (a :: as))) := by
  unfold hierStep
  rw [hsplit] at hnc ⊢
  simp only [hnc, Bool.false_eq_true, if_false]
  have hne : (LOOKUP_SEP.intercalate (a :: as) == "") = false := by
    simp only [beq_eq_false_iff_ne, ne_eq]
    exact intercalate_ne_empty a as ha
  simp only [hne, Bool.false_eq_true, if_false]

/-- The hierarchy fold, started from any accumulator, extends every
existing entry with the contributions of the new paths and appends the new
first-occurrence keys with their contributions. -/
theorem hier_fold_spec :
    ∀ (rels : List String) (h0 : List (String × List String)),
    (∀ rel ∈ rels, py_split rel ≠ [] ∧ (py_split rel).contains "" = false) →
    List.foldlM hierStep h0 rels =
      .ok (h0.map (fun p => (p.1, p.2 ++ contrib p.1 rels)) ++
        (firstKeys rels (h0.map Prod.fst)).map
          (fun k => (k, contrib k rels))) := by
  intro rels
  induction rels with
  | nil =>
    intro h0 _
    have hfold : List.foldlM hierStep h0 [] = .ok h0 := rfl
    rw [hfold]
    simp [contrib_nil, firstKeys]
  | cons rel rest ih =>
    intro h0 hyp
    obtain ⟨hne, hnc⟩ := hyp rel (by simp)
    have hyprest : ∀ r ∈ rest, py_split r ≠ [] ∧
        (py_split r).contains "" = false :=
      fun r hr => hyp r (by simp [hr])
    cases hsplit : py_split rel with
    | nil => exact absurd hsplit hne
    | cons root tail =>
      rw [List.foldlM_cons]
      cases tail with
      | nil =>
        rw [hierStep_single h0 rel root hsplit hnc]
        have hcontrib : ∀ k, contrib k (rel :: rest) = contrib k rest :=
          fun k => contrib_cons_single k rel rest root hsplit
        cases hany : h0.any (fun p => p.1 == root) with
        | true =>
          rw [hierSetdefault_mem h0 root hany]
          refine (ih h0 hyprest).trans (congrArg Except.ok ?_)
          have hfk : firstKeys (rel :: rest) (h0.map Prod.fst) =
              firstKeys rest (h0.map Prod.fst) := by
            rw [firstKeys_cons rel rest _ root [] hsplit]
            rw [if_pos (by rw [keys_contains_eq_any]; exact hany)]
          rw [hfk]
          simp only [hcontrib]
        | false =>
          rw [hierSetdefault_new h0 root hany]
          refine (ih (h0 ++ [(root, [])]) hyprest).trans
            (congrArg Except.ok ?_)
          have hfk : firstKeys (rel :: rest) (h0.map Prod.fst) =
              root :: firstKeys rest (h0.map Prod.fst ++ [root]) := by
            rw [firstKeys_cons rel rest _ root [] hsplit]
            rw [if_neg (by rw [keys_contains_eq_any]; simp [hany])]
          rw [hfk]
          simp only [hcontrib, List.map_append, List.map_cons]
          rw [List.append_assoc]
          rfl
      | cons a as =>
        have ha : a ≠ "" := by
          intro hc
          subst hc
          rw [hsplit] at hnc
          have h2 : ((root :: "" :: as).contains "") = true :=
            List.elem_iff.2 (by simp)
          rw [hnc] at h2
          exact Bool.noConfusion h2
        rw [hierStep_nested h0 rel root a as hsplit hnc ha]
        set nest := LOOKUP_SEP.intercalate (a :: as) with hnest
        have hcontrib : ∀ k, contrib k (rel :: rest) =
            if root == k then nest :: contrib k rest else contrib k rest :=
          fun k => contrib_cons_nested k rel rest root a as hsplit
        cases hany : h0.any (fun p => p.1 == root) with
        | true =>
          rw [hierSetdefault_mem h0 root hany]
          refine (ih (hierAppend h0 root nest)
            (hyprest)).trans (congrArg Except.ok ?_)
          rw [keys_hierAppend]
          have hrootmem : root ∈ h0.map Prod.fst :=
            List.elem_iff.1 (by
              show (h0.map Prod.fst).contains root = true
              rw [keys_contains_eq_any]
              exact hany)
          have hfk : firstKeys (rel :: rest) (h0.map Prod.fst) =
              firstKeys rest (h0.map Prod.fst) := by
            rw [firstKeys_cons rel rest _ root (a :: as) hsplit]
            rw [if_pos (by rw [keys_contains_eq_any]; exact hany)]
          rw [hfk]
          congr 1
          · unfold hierAppend
            rw [List.map_map]
            apply List.map_congr_left
            intro p _
            by_cases hp : p.1 = root
            · have hbeq : (p.1 == root) = true := by simpa using hp
              have hbeq2 : (root == p.1) = true := by
                simp only [beq_iff_eq]; exact hp.symm
              simp only [Function.comp_apply, hbeq, if_true, hcontrib p.1,
                hbeq2]
              simp
            · have hbeq : (p.1 == root) = false := by simpa using hp
              have hbeq2 : (root == p.1) = false := by
                simp only [beq_eq_false_iff_ne, ne_eq]
                exact fun hc => hp hc.symm
              simp [hbeq, hcontrib p.1, hbeq2, hp]
          · apply List.map_congr_left
            intro k hk
            have hkne : k ≠ root := by
              intro hc
              subst hc
              exact (firstKeys_not_mem_excl rest (h0.map Prod.fst) k hk)
                hrootmem
            have hbeq : (root == k) = false := by
              simp only [beq_eq_false_iff_ne, ne_eq]
              exact fun hc => hkne hc.symm
            rw [hcontrib k, hbeq]
            simp
        | false =>
          rw [hierSetdefault_new h0 root hany]
          have hup : hierAppend (h0 ++ [(root, [])]) root nest =
              h0 ++ [(root, [nest])] := by
            unfold hierAppend
            rw [List.map_append]
            congr 1
            · conv_rhs => rw [← List.map_id h0]
              apply List.map_congr_left
              intro p hp
              have := any_false_forall h0 (fun p => p.1 == root) hany p hp
              simp only at this
              simp [this]
            · simp
          rw [hup]
          refine (ih (h0 ++ [(root, [nest])]) hyprest).trans
            (congrArg Except.ok ?_)
          rw [List.map_append]
          have hfk : firstKeys (rel :: rest) (h0.map Prod.fst) =
              root :: firstKeys rest (h0.map Prod.fst ++ [root]) := by
            rw [firstKeys_cons rel rest _ root (a :: as) hsplit]
            rw [if_neg (by rw [keys_contains_eq_any]; simp [hany])]
          rw [hfk]
          have hexth0 : h0.map (fun p => (p.1, p.2 ++ contrib p.1 rest)) =
              h0.map (fun p => (p.1, p.2 ++ contrib p.1 (rel :: rest))) := by
            apply List.map_congr_left
            intro p hp
            have hbf := any_false_forall h0 (fun p => p.1 == root) hany p hp
            simp only at hbf
            have hbeq2 : (root == p.1) = false := by
              simp only [beq_eq_false_iff_ne, ne_eq]
              intro hc
              rw [beq_eq_false_iff_ne] at hbf
              exact hbf hc.symm
            rw [hcontrib p.1, hbeq2]
            simp
          rw [← hexth0]
          simp only [List.map_cons, List.map_append]
          have hnewrest : (firstKeys rest (h0.map Prod.fst ++ [root])).map
                (fun k => (k, contrib k (rel :: rest))) =
              (firstKeys rest (h0.map Prod.fst ++ [root])).map
                (fun k => (k, contrib k rest)) := by
            apply List.map_congr_left
            intro k hk
            have hkne : k ≠ root := fun hc =>
              (firstKeys_not_mem_excl rest (h0.map Prod.fst ++ [root]) k hk)
                (by rw [hc]; simp)
            have hbeq : (root == k) = false := by
              simp only [beq_eq_false_iff_ne, ne_eq]
              exact fun hc => hkne hc.symm
            rw [hcontrib k, hbeq]
            simp
          rw [hnewrest]
          have hroot : contrib root (rel :: rest) = nest :: contrib root rest := by
            rw [hcontrib root]
            simp
          rw [hroot]
          simp only [List.singleton_append, List.cons_append,
            List.append_assoc]
          rfl

/-- `splitSepAux` never returns an empty list of segments. -/
theorem splitSepAux_ne_nil : ∀ (cs acc : List Char), splitSepAux cs acc ≠ [] := by
  intro cs acc
  induction cs, acc using splitSepAux.induct with
  | case1 rest acc ih => simp [splitSepAux]
  | case2 c rest acc h ih => simpa [splitSepAux, h] using ih
  | case3 acc => simp [splitSepAux]

/-- `py_split` never returns an empty list of segments (Python
`str.split` with a non-empty separator returns at least one piece). -/
theorem py_split_ne_nil (s : String) : py_split s ≠ [] := by
  unfold py_split
  intro hc
  exact splitSepAux_ne_nil s.toList [] (List.map_eq_nil_iff.1 hc)

/-- C7: for every list of relation paths whose segments are all non-empty,
`get_relations_hierarchy` groups the paths by first segment, mapping each
first segment to the list of the remaining joined segments of its paths,
omitting (not inserting as empty) the entry of a single-segment path, with
first-level keys in first-occurrence order (`hierarchySpec`); and in
particular the hierarchy of `["a__b__c", "a__b__d", "e"]` is
`[("a", ["b__c", "b__d"]), ("e", [])]`. -/
theorem hierarchy_grouping :
    (∀ rels : List String,
      (∀ rel ∈ rels, (py_split rel).contains "" = false) →
      get_relations_hierarchy rels = .ok (hierarchySpec rels)) ∧
    get_relations_hierarchy ["a__b__c", "a__b__d", "e"] =
      .ok [("a", ["b__c", "b__d"]), ("e", [])] := by
  constructor
  · intro rels h
    unfold get_relations_hierarchy hierarchySpec
    rw [hier_fold_spec rels [] (fun rel hm => ⟨py_split_ne_nil rel, h rel hm⟩)]
    simp
  · rfl

/-- Witness for C7: the general grouping theorem applied to the concrete
path list `["x__y__z", "x__w", "u"]`. -/
theorem hierarchy_grouping_witness :
    get_relations_hierarchy ["x__y__z", "x__w", "u"] =
      .ok [("x", ["y__z", "w"]), ("u", [])] := by
  rw [hierarchy_grouping.1 ["x__y__z", "x__w", "u"] (by decide)]
  rfl

/-- A first segment that is not a field of its model makes
`get_related_query_name_parts` fail with `FieldDoesNotExist`. -/
theorem grqn_parts_none (reg : Registry) (model : Mdl) (root : String)
    (branch : List String) (hr : reg model.ctid root = none) :
    get_related_query_name_parts reg model (root :: branch) =
      .error .fieldDoesNotExist := by
  conv_lhs => rw [get_related_query_name_parts.eq_def]
  dsimp only
  rw [hr]

/-- One resolution step of `get_related_query_name_parts` on a
multi-segment list: the branch result, any error included, composed with
the root segment reverse name. -/
theorem grqn_parts_step (reg : Registry) (model : Mdl) (root b : String)
    (bs : List String) (fi : FieldInfo) (bm : Mdl) (rqn : String)
    (hr : reg model.ctid root = some fi) (hf : fi.remote = some (bm, rqn)) :
    get_related_query_name_parts reg model (root :: b :: bs) =
      (get_related_query_name_parts reg bm (b :: bs)).map
        (fun s => s ++ LOOKUP_SEP ++ rqn) := by
  conv_lhs => rw [get_related_query_name_parts.eq_def]
  dsimp only
  rw [hr]
  dsimp only
  rw [hf]
  dsimp only
  cases h : get_related_query_name_parts reg bm (b :: bs) with
  | error e => rfl
  | ok s => rfl

/-- C8: the reverse relation name of a multi-segment path composes
right-to-left.  First part: when the first segment resolves (to the
related model `bm` and reverse name `rqn`) and re-splitting the re-joined
tail gives the tail back (always true of tails produced by a split), the
result is the reverse name of the remaining path scoped to `bm`, then the
separator, then `rqn` — with any error of the remaining path (in
particular a missing deeper segment) propagated unchanged.  Second part: a
first segment that does not name a field of the root type fails with
`FieldDoesNotExist` (the embedding's unknown-relation error).  Third part:
`countries__states__cities` on `Continent` resolves to
`state__country__continent`. -/
theorem related_name_composition :
    (∀ (reg : Registry) (model : Mdl) (relation : String)
       (root b : String) (bs : List String) (fi : FieldInfo)
       (bm : Mdl) (rqn : String),
      py_split relation = root :: b :: bs →
      reg model.ctid root = some fi →
      fi.remote = some (bm, rqn) →
      py_split (LOOKUP_SEP.intercalate (b :: bs)) = b :: bs →
      get_related_query_name reg model relation =
        (get_related_query_name reg bm (LOOKUP_SEP.intercalate (b :: bs))).map
          (fun s => s ++ LOOKUP_SEP ++ rqn)) ∧
    (∀ (reg : Registry) (model : Mdl) (relation root : String)
       (branch : List String),
      py_split relation = root :: branch →
      reg model.ctid root = none →
      get_related_query_name reg model relation =
        .error .fieldDoesNotExist) ∧
    get_related_query_name regC Continent "countries__states__cities" =
      .ok "state__country__continent" := by
  refine ⟨?_, ?_, rfl⟩
  · intro reg model relation root b bs fi bm rqn hsplit hreg hfi hrt
    unfold get_related_query_name
    rw [hsplit, hrt]
    exact grqn_parts_step reg model root b bs fi bm rqn hreg hfi
  · intro reg model relation root branch hsplit hreg
    unfold get_related_query_name
    rw [hsplit]
    exact grqn_parts_none reg model root branch hreg

/-- Witness for C8: the composition part applied to the docstring
example's outermost step. -/
theorem related_name_composition_witness :
    get_related_query_name regC Continent "countries__states__cities" =
      (get_related_query_name regC Country
        (LOOKUP_SEP.intercalate ["states", "cities"])).map
        (fun s => s ++ LOOKUP_SEP ++ "continent") :=
  related_name_composition.1 regC Continent "countries__states__cities"
    "countries" "states" ["cities"] ⟨some (Country, "continent")⟩ Country
    "continent" (by decide) (by decide) rfl (by decide)

end DjangoTranslations
